import Mathlib

/-!
Particle system and vertex pipeline of the perfume example sketches.

A shallow embedding of `example1 - lightning/src/testApp.cpp` and
`example3 - afterimages/src/testApp.cpp`.

Conventions of the embedding:

* `float` values are modelled by exact rationals (`ℚ`), so every arithmetic
  identity below is an identity of exact arithmetic;
* `std::vector` / `std::deque` are modelled by `List`, element `0` first;
* a `for` loop over an index is a recursive function on the index, with the
  loop condition re-evaluated on every round, as in the source;
* a read outside a container is undefined behaviour in the source and is
  modelled, where a function performs raw indexed reads, by the result `none`.
-/

/-! ## Data model -/

/-- The three-component vector of the host framework, with the operators the sketches use. -/
structure ofVec3f where
  x : ℚ
  y : ℚ
  z : ℚ
deriving DecidableEq, Repr

namespace ofVec3f

/-- The default constructor `ofVec3f()` and the conversion `ofVec3f f = 0`. -/
def zero : ofVec3f := ⟨0, 0, 0⟩

instance : Inhabited ofVec3f := ⟨zero⟩

/-- Component-wise `operator+`. -/
def add (a b : ofVec3f) : ofVec3f := ⟨a.x + b.x, a.y + b.y, a.z + b.z⟩

/-- Component-wise `operator-`. -/
def sub (a b : ofVec3f) : ofVec3f := ⟨a.x - b.x, a.y - b.y, a.z - b.z⟩

/-- Multiplication by a scalar, `operator*(float)`. -/
def scale (a : ofVec3f) (f : ℚ) : ofVec3f := ⟨a.x * f, a.y * f, a.z * f⟩

/-- The cross product `a.crossed(b)`. -/
def crossed (a b : ofVec3f) : ofVec3f :=
  ⟨a.y * b.z - a.z * b.y, a.z * b.x - a.x * b.z, a.x * b.y - a.y * b.x⟩

instance : Add ofVec3f := ⟨add⟩
instance : Sub ofVec3f := ⟨sub⟩

end ofVec3f

/-- The class `Particle`: position, heading, lifespan and type. -/
structure Particle where
  pos : ofVec3f
  heading : ofVec3f
  lifespan : ℚ
  type : Int
deriving DecidableEq, Repr

namespace Particle

instance : Inhabited Particle := ⟨⟨default, default, 0, 0⟩⟩

/-- The method `Particle::init` overwrites all four members. -/
def init (_self : Particle) (pos_ heading_ : ofVec3f) (lifespan_ : ℚ) (type_ : Int) : Particle :=
  { pos := pos_, heading := heading_, lifespan := lifespan_, type := type_ }

def setPos (self : Particle) (pos_ : ofVec3f) : Particle := { self with pos := pos_ }
def getPos (self : Particle) : ofVec3f := self.pos
def getHeading (self : Particle) : ofVec3f := self.heading
def setLifespan (self : Particle) (lifespan_ : ℚ) : Particle := { self with lifespan := lifespan_ }
def getLifespan (self : Particle) : ℚ := self.lifespan
def getType (self : Particle) : Int := self.type
def setType (self : Particle) (type_ : Int) : Particle := { self with type := type_ }

end Particle

/-- The class `ParticleSystem`: its only member is the vector of particles. -/
structure ParticleSystem where
  particleVec : List Particle
deriving DecidableEq, Repr

/-- The method `ParticleSystem::getSize`. -/
def ParticleSystem.getSize (self : ParticleSystem) : Nat := self.particleVec.length

/-- The method `ParticleSystem::getParticles`. -/
def ParticleSystem.getParticles (self : ParticleSystem) : List Particle := self.particleVec

/-! ## Host framework -/

/-- A joint of the motion-capture skeleton as `addFrame` reads it: its position
and the positions of its children, in the order of `getChildren()`. -/
structure ofxBvhJoint where
  position : ofVec3f
  children : List ofVec3f
deriving DecidableEq, Repr

/-- The motion-capture skeleton: `getNumJoints()` joints, read by `getJoint(i)`. -/
structure ofxBvh where
  joints : List ofxBvhJoint
deriving DecidableEq, Repr

/-- The type `Tracker::Frame`: the position values of one frame of movement. -/
abbrev Frame := List ofVec3f

/-- The type `Tracker::Track`: the frames of one figure, the newest first. -/
abbrev Track := List Frame

/-- The type `Tracker::Buffer`. -/
structure Buffer where
  v1 : ofVec3f
  v2 : ofVec3f
  norm : ofVec3f
deriving DecidableEq, Repr

/-- The type `Tracker::BufferArray`. -/
abbrev BufferArray := List Buffer

/-- The functions of the host framework and of the C library that the vertex
pipeline calls and that are not rational functions: one-dimensional noise,
signed noise, the sine, the constant `PI`, and `ofVec3f::normalized`. -/
structure Host where
  ofNoise : ℚ → ℚ
  ofSignedNoise : ℚ → ℚ
  sin : ℚ → ℚ
  PI : ℚ
  normalized : ofVec3f → ofVec3f

/-- The constant `FLT_EPSILON` of the C library, 2 ^ -23. -/
def FLT_EPSILON : ℚ := 1 / 8388608

/-- The host function `ofMap(value, inputMin, inputMax, outputMin, outputMax)`,
without clamping: the linear map sending `inputMin` to `outputMin` and
`inputMax` to `outputMax`; `outputMin` when the input range is narrower than
`FLT_EPSILON`. -/
def ofMap (value inputMin inputMax outputMin outputMax : ℚ) : ℚ :=
  if |inputMin - inputMax| < FLT_EPSILON then outputMin
  else (value - inputMin) / (inputMax - inputMin) * (outputMax - outputMin) + outputMin

/-- The value of `track.size() - 1` in `size_t` arithmetic (64 bits, and a
container holds fewer than `2 ^ 64` elements): for an empty container the
subtraction wraps around to `2 ^ 64 - 1`. -/
def sizeMinusOne (size : Nat) : Nat := if size = 0 then 2 ^ 64 - 1 else size - 1

/-- The C library's `rand()`: the sequence of values it returns (non-negative
integers) and the number of calls made so far. -/
structure RandState where
  draws : Nat → Nat
  calls : Nat

/-- The value the next call of `rand()` returns. -/
def RandState.value (r : RandState) : Nat := r.draws r.calls

/-- The state of `rand()` after one more call. -/
def RandState.advance (r : RandState) : RandState := { r with calls := r.calls + 1 }

/-- A read `xs[idx]` with an `int` index: `none` when the index is outside the container. -/
def readAt {α : Type} (xs : List α) (idx : Int) : Option α :=
  match idx with
  | Int.ofNat n => xs[n]?
  | Int.negSucc _ => none

/-- The colour type of the host framework. -/
structure ofColor where
  r : Int
  g : Int
  b : Int
  a : Int
deriving DecidableEq, Repr

/-- One call of `drawLineStrip(width, color, pos1, pos2)`: the line primitive
handed to the graphics sink. -/
structure LineStrip where
  width : Int
  color : ofColor
  pos1 : ofVec3f
  pos2 : ofVec3f
deriving DecidableEq, Repr

/-! ## The particle system of the lightning example -/

namespace Lightning

/-- The method `ParticleSystem::emit`: build a particle with `init` and `push_back` it. -/
def emit (self : ParticleSystem) (pos_ heading_ : ofVec3f) (lifespan_ : ℚ) (type_ : Int) :
    ParticleSystem :=
  let next : Particle := (default : Particle).init pos_ heading_ lifespan_ type_
  { particleVec := self.particleVec ++ [next] }

/-- The loop of `ParticleSystem::updateParticles`, from index `i` on. -/
def updateParticlesLoop (i : Nat) (v : List Particle) : List Particle :=
  if h : i < v.length then
    let v1 := v.set i (v[i].setPos (v[i].getPos + v[i].getHeading))
    have h1 : i < v1.length := by simpa [v1] using h
    let v2 := v1.set i (v1[i].setLifespan (v1[i].getLifespan - 1))
    updateParticlesLoop (i + 1) v2
  else v
termination_by v.length - i
decreasing_by
  simp_wf
  omega

/-- The method `ParticleSystem::updateParticles`. -/
def updateParticles (self : ParticleSystem) : ParticleSystem :=
  { particleVec := updateParticlesLoop 0 self.particleVec }

/-- The loop of `ParticleSystem::checkLifespans`, from index `i` on: a particle
whose lifespan is below 0 gets type -1, and then the first particle of the
vector is erased when its type is -1. -/
def checkLifespansLoop (i : Nat) (v : List Particle) : List Particle :=
  if h : i < v.length then
    if v[i].getLifespan < 0 then
      let v1 := v.set i (v[i].setType (-1))
      have h0 : 0 < v1.length := by simp [v1]; omega
      if v1[0].getType = -1 then
        checkLifespansLoop (i + 1) (v1.eraseIdx 0)
      else
        checkLifespansLoop (i + 1) v1
    else
      checkLifespansLoop (i + 1) v
  else v
termination_by v.length - i
decreasing_by
  all_goals simp_wf
  all_goals omega

/-- The method `ParticleSystem::checkLifespans`. -/
def checkLifespans (self : ParticleSystem) : ParticleSystem :=
  { particleVec := checkLifespansLoop 0 self.particleVec }

/-! ## The tracker of the lightning example -/

/-- The method `Tracker::addFrame`, inner loop over the children of joint `j`, from child `n` on:
push the joint's position, then the child's position. -/
def addFrameChildren (j : ofxBvhJoint) (n : Nat) (f : Frame) : Frame :=
  if h : n < j.children.length then
    addFrameChildren j (n + 1) ((f ++ [j.position]) ++ [j.children[n]])
  else f
termination_by j.children.length - n

/-- The method `Tracker::addFrame`, outer loop over the joints of `o`, from joint `i` on. -/
def addFrameJoints (o : ofxBvh) (i : Nat) (f : Frame) : Frame :=
  if h : i < o.joints.length then
    addFrameJoints o (i + 1) (addFrameChildren o.joints[i] 0 f)
  else f
termination_by o.joints.length - i

/-- The method `Tracker::addFrame`: fill `*f`, `push_front` it on the track, and `pop_back`
when the track has grown beyond 200 frames.  Returns the new `*f` and `*track_`. -/
def addFrame (f : Frame) (o : ofxBvh) (track_ : Track) : Frame × Track :=
  let f1 := addFrameJoints o 0 f
  let t1 := f1 :: track_
  let t2 := if t1.length > 200 then t1.dropLast else t1
  (f1, t2)

/-- The body of the inner loop of `Tracker::modifyVertices`: the displacement
`f` computed for vertex `v` at index `n` of a frame with blend factor `delta`,
added to `v`. -/
def modifyVertex (H : Host) (offset : ofVec3f) (delta : ℚ) (n : Nat) (v : ofVec3f) : ofVec3f :=
  let f : ofVec3f := ofVec3f.zero
  let f := { f with y := f.y - (-2.5) * (1 - H.sin (delta ^ 2 * H.PI)) }
  let f := { f with y := f.y + H.ofNoise (v.y * 0.0001 + offset.y) * 1.4 }
  let f := { f with x := f.x + H.ofSignedNoise (v.x * 0.0001 + offset.x) * 3 }
  let f := { f with z := f.z + H.ofSignedNoise (v.z * 0.0001 + offset.z) * 3 }
  let f :=
    if v.y < 0 then
      let f := { f with y := f.y * 0.02 }
      if n % 2 = 0 then
        { x := f.x * 3, y := f.y * 1.5, z := f.z * 3 }
      else
        { x := f.x * (-3), y := f.y * 1.5, z := f.z * 3 }
    else f
  v + f

/-- The method `Tracker::modifyVertices`, inner loop over the vertices of one frame, from `n` on. -/
def modifyVerticesFrame (H : Host) (offset : ofVec3f) (delta : ℚ) (n : Nat) (f : Frame) : Frame :=
  if h : n < f.length then
    modifyVerticesFrame H offset delta (n + 1) (f.set n (modifyVertex H offset delta n f[n]))
  else f
termination_by f.length - n
decreasing_by
  simp_wf
  omega

/-- The method `Tracker::modifyVertices`, outer loop over the frames of the track, from `i` on. -/
def modifyVerticesLoop (H : Host) (offset : ofVec3f) (i : Nat) (track : Track) : Track :=
  if h : i < track.length then
    let delta := ofMap i 0 track.length 0 1
    modifyVerticesLoop H offset (i + 1) (track.set i (modifyVerticesFrame H offset delta 0 track[i]))
  else track
termination_by track.length - i
decreasing_by
  simp_wf
  omega

/-- The method `Tracker::modifyVertices`. -/
def modifyVertices (H : Host) (offset : ofVec3f) (track : Track) : Track :=
  modifyVerticesLoop H offset 0 track

/-- The method `Tracker::cacheVertices`, inner loop over the frames, from `i` on, for the
pair of vertices `n`, `n + 1`.  `bound` is the value of `track.size() - 1`. -/
def cacheVerticesInner (H : Host) (track : Track) (n bound : Nat) (i : Nat) (norm : ofVec3f)
    (arr : BufferArray) : Option BufferArray :=
  if i < bound then
    let delta := ofMap i 0 track.length 0.1 1
    match track[i]? with
    | none => none
    | some f1 =>
      match f1[n]?, f1[n + 1]? with
      | some v1, some v2 =>
        let d := v1 - v2
        let c1 := H.normalized (d.crossed ⟨0, 1, 0⟩)
        let c := H.normalized (c1.crossed d)
        let norm := if i = 0 then c else norm
        let m := v1.scale delta + v2.scale (1 - delta)
        let norm := norm + (c - norm).scale 0.3
        let buf : Buffer := { norm := norm, v1 := v1, v2 := m }
        cacheVerticesInner H track n bound (i + 1) norm (arr ++ [buf])
      | _, _ => none
  else some arr
termination_by bound - i

/-- The method `Tracker::cacheVertices`, outer loop `for (n = 0; n < 52; n += 2)`. -/
def cacheVerticesOuter (H : Host) (track : Track) (n : Nat) (buffer : List BufferArray) :
    Option (List BufferArray) :=
  if n < 52 then
    match cacheVerticesInner H track n (sizeMinusOne track.length) 0 ofVec3f.zero [] with
    | none => none
    | some arr => cacheVerticesOuter H track (n + 2) (buffer ++ [arr])
  else some buffer
termination_by 52 - n

/-- The method `Tracker::cacheVertices`: clear `buffer`, then rebuild it from the track. -/
def cacheVertices (H : Host) (track : Track) (_buffer : List BufferArray) :
    Option (List BufferArray) :=
  let buffer : List BufferArray := []
  cacheVerticesOuter H track 0 buffer

/-- The method `Tracker::handleParticles`, the loop `for (j = 0; j < 8; j++)`, from `j` on.
Every statement reads `track[0][21]` anew; the calls of `rand()` are taken in
the order of the source text. -/
def handleParticlesLoop (track : Track) (j : Nat) (ps : ParticleSystem) (r : RandState) :
    Option (ParticleSystem × RandState) :=
  if j < 8 then
    match track[0]? with
    | none => none
    | some f0 =>
      match f0[21]? with
      | none => none
      | some h =>
        let nx : ℚ := h.x + ((r.value % 20 : Nat) : ℚ) - 10
        let r := r.advance
        let ny : ℚ := h.y + ((r.value % 20 : Nat) : ℚ) - 10
        let r := r.advance
        let nz : ℚ := h.z + ((r.value % 20 : Nat) : ℚ) - 10
        let r := r.advance
        let hx : ℚ := (((r.value % 1 : Nat) : Int) - 1 : Int)
        let r := r.advance
        let hz : ℚ := (((r.value % 1 : Nat) : Int) : Int)
        let r := r.advance
        let ps := emit ps ⟨nx, ny, nz⟩ ⟨hx, 0.5, hz⟩ 20 1
        let nx : ℚ := h.x + ((r.value % 4 : Nat) : ℚ) - 2
        let r := r.advance
        let ny : ℚ := h.y + ((r.value % 4 : Nat) : ℚ) - 2
        let r := r.advance
        let nz : ℚ := h.z + ((r.value % 4 : Nat) : ℚ) - 2
        let r := r.advance
        let ps := emit ps ⟨nx, ny, nz⟩ ⟨0, 0.5, 0⟩ 5 1
        handleParticlesLoop track (j + 1) ps r
  else some (ps, r)
termination_by 8 - j

/-- The method `Tracker::handleParticles`: emit around the head when fewer than 10000
particles exist, then update every particle. -/
def handleParticles (track : Track) (ps : ParticleSystem) (r : RandState) :
    Option (ParticleSystem × RandState) :=
  match (if ps.getSize < 10000 then handleParticlesLoop track 0 ps r else some (ps, r)) with
  | none => none
  | some (ps1, r1) => some (updateParticles ps1, r1)

/-- What `Tracker::renderBolt` changes: the particle system, the state of
`rand()`, and the line strips handed to the graphics sink so far. -/
structure BoltState where
  particleHandler : ParticleSystem
  rng : RandState
  drawn : List LineStrip

/-- The method `Tracker::renderBolt`, the loop `for (j = 0; j < intensity; j++)` drawing
the three overlapping line strips of one segment. -/
def renderBoltStrips (widths : Nat → Int) (colors : Nat → ofColor) (intensity : Int)
    (last mid : ofVec3f) (j : Nat) (drawn : List LineStrip) : List LineStrip :=
  if (j : Int) < intensity then
    let drawn := drawn ++ [⟨widths 0, colors 0, last, mid⟩]
    let drawn := drawn ++ [⟨widths 1, colors 1, last, mid⟩]
    let drawn := drawn ++ [⟨widths 2, colors 2, last, mid⟩]
    renderBoltStrips widths colors intensity last mid (j + 1) drawn
  else drawn
termination_by (intensity - j).toNat
decreasing_by
  simp_wf
  omega

/-- The method `Tracker::renderBolt`, the loop `for (j = 0; j < 3; j++)` emitting the
sparks at the end point of the bolt. -/
def renderBoltEndSparks (target : Frame) (endIndex : Int) (j : Nat) (ps : ParticleSystem)
    (r : RandState) : Option (ParticleSystem × RandState) :=
  if j < 3 then
    match readAt target endIndex with
    | none => none
    | some tg =>
      let hx : ℚ := (((r.value % 2 : Nat) : Int) - 1 : Int)
      let r := r.advance
      let hy : ℚ := (((r.value % 2 : Nat) : Int) - 1 : Int)
      let r := r.advance
      let hz : ℚ := (((r.value % 2 : Nat) : Int) - 1 : Int)
      let r := r.advance
      renderBoltEndSparks target endIndex (j + 1) (emit ps tg ⟨hx, hy, hz⟩ 8 1) r
  else some (ps, r)
termination_by 3 - j

/-- The method `Tracker::renderBolt`, the loop `for (i = 1; i <= numPoints_; i++)`, from
`i` on.  `startPoints`, `numPoints`, `placeCount` and `modifier` (an `int[1024]`)
are the members of the tracker the function reads.  A division by zero in
`rand()%sparkMod` and a read outside `startPoints`, `target` or `modifier` give
`none`.  The quotient `float(i)/numPoints` is taken in exact arithmetic. -/
def renderBoltLoop (startPoints : Frame) (numPoints placeCount : Int) (modifier : Nat → Int)
    (numPoints_ : Int) (target : Frame) (startIndex endIndex : Int)
    (widths : Nat → Int) (colors : Nat → ofColor) (sparkMod intensity positionMod : Int)
    (i : Nat) (last mid : ofVec3f) (s : BoltState) : Option BoltState :=
  if (i : Int) ≤ numPoints_ then
    -- emit particles where the bolt begins
    if sparkMod = 0 then none else
    let a := s.rng.value
    let r := s.rng.advance
    let emitted : Option (ParticleSystem × RandState) :=
      if Int.tmod a sparkMod = 0 then
        match readAt startPoints startIndex with
        | none => none
        | some sp =>
          let hx : ℚ := (((r.value % 2 : Nat) : Int) - 1 : Int)
          let r := r.advance
          let hy : ℚ := (((r.value % 2 : Nat) : Int) - 1 : Int)
          let r := r.advance
          let hz : ℚ := (((r.value % 2 : Nat) : Int) - 1 : Int)
          let r := r.advance
          some (emit s.particleHandler sp ⟨hx, hy, hz⟩ 8 1, r)
      else some (s.particleHandler, r)
    match emitted with
    | none => none
    | some (ps, r) =>
      match readAt startPoints startIndex, readAt target endIndex,
        (if i < 1024 then some (modifier i) else none) with
      | some sp, some tg, some m =>
        -- the starting point of the first segment
        let last : ofVec3f := if i = 1 then { sp with y := sp.y * positionMod } else last
        -- the next point
        let mx : ℚ := sp.x + (i : ℚ) / numPoints * (tg.x - sp.x) + ((r.value % 5 : Nat) : ℚ)
        let r := r.advance
        let my : ℚ := sp.y * positionMod + (i : ℚ) / numPoints * (tg.y - sp.y) * positionMod
          + m + ((r.value % 5 : Nat) : ℚ)
        let r := r.advance
        let mz : ℚ := sp.z + (i : ℚ) / numPoints * (tg.z - sp.z) + ((r.value % 5 : Nat) : ℚ)
        let r := r.advance
        let mid : ofVec3f := { mid with x := mx, y := my, z := mz }
        let drawn := renderBoltStrips widths colors intensity last mid 0 s.drawn
        let last := mid
        if (i : Int) > placeCount then
          some { particleHandler := ps, rng := r, drawn := drawn }
        else
          let sparks : Option (ParticleSystem × RandState) :=
            if (i : Int) > numPoints - 5 then
              let e := r.value
              let r := r.advance
              if Int.tmod e sparkMod = 0 then renderBoltEndSparks target endIndex 0 ps r
              else some (ps, r)
            else some (ps, r)
          match sparks with
          | none => none
          | some (ps, r) =>
            renderBoltLoop startPoints numPoints placeCount modifier numPoints_ target
              startIndex endIndex widths colors sparkMod intensity positionMod (i + 1) last mid
              { particleHandler := ps, rng := r, drawn := drawn }
      | _, _, _ => none
  else some s
termination_by (numPoints_ + 1 - i).toNat
decreasing_by
  simp_wf
  omega

/-- The method `Tracker::renderBolt`. -/
def renderBolt (startPoints : Frame) (numPoints placeCount : Int) (modifier : Nat → Int)
    (last mid : ofVec3f) (numPoints_ _fade : Int) (target : Frame) (startIndex endIndex : Int)
    (widths : Nat → Int) (colors : Nat → ofColor) (sparkMod intensity positionMod : Int)
    (s : BoltState) : Option BoltState :=
  renderBoltLoop startPoints numPoints placeCount modifier numPoints_ target startIndex endIndex
    widths colors sparkMod intensity positionMod 1 last mid s


/-- The method `Tracker::drawFigure`, the loop `for (n = 0; n < f.size(); n += 2)`
that draws the lines of the figure, from `n` on: it reads `f[n]` and `f[n + 1]`
and hands both to `glVertex3fv`.  `out` collects the vertices handed over; a
read outside the frame gives `none`. -/
def drawFigureLines (f : Frame) (n : Nat) (out : List ofVec3f) : Option (List ofVec3f) :=
  if n < f.length then
    match f[n]?, f[n + 1]? with
    | some v1, some v2 => drawFigureLines f (n + 2) ((out ++ [v1]) ++ [v2])
    | _, _ => none
  else some out
termination_by f.length - n

/-- The method `Tracker::drawFigure`, the loop `for (n = 0; n < f.size(); n++)`
that draws a point at every position of the frame, from `n` on. -/
def drawFigurePoints (f : Frame) (n : Nat) (out : List ofVec3f) : List ofVec3f :=
  if h : n < f.length then
    drawFigurePoints f (n + 1) (out ++ [f[n]])
  else out
termination_by f.length - n

/-- The method `Tracker::drawFigure`, as the sequence of vertices it hands to the
graphics sink (line widths, point sizes and colours are left out): nothing for
an empty track; otherwise, for `f = track[0]`, the line loop twice and the
point loop twice. -/
def drawFigure (track : Track) : Option (List ofVec3f) :=
  match track with
  | [] => some []
  | f :: _ =>
    match drawFigureLines f 0 [] with
    | none => none
    | some out1 =>
      match drawFigureLines f 0 out1 with
      | none => none
      | some out2 => some (drawFigurePoints f 0 (drawFigurePoints f 0 out2))
end Lightning

/-! ## The particle system of the afterimages example -/

namespace Afterimages


/-- The method `ParticleSystem::emit`: build a particle with `init` and `push_back` it. -/
def emit (self : ParticleSystem) (pos_ heading_ : ofVec3f) (lifespan_ : ℚ) (type_ : Int) :
    ParticleSystem :=
  let next : Particle := (default : Particle).init pos_ heading_ lifespan_ type_
  { particleVec := self.particleVec ++ [next] }

/-- The loop of `ParticleSystem::updateParticles`, from index `i` on. -/
def updateParticlesLoop (i : Nat) (v : List Particle) : List Particle :=
  if h : i < v.length then
    let v1 := v.set i (v[i].setPos (v[i].getPos + v[i].getHeading))
    have h1 : i < v1.length := by simpa [v1] using h
    let v2 := v1.set i (v1[i].setLifespan (v1[i].getLifespan - 1))
    updateParticlesLoop (i + 1) v2
  else v
termination_by v.length - i
decreasing_by
  simp_wf
  omega

/-- The method `ParticleSystem::updateParticles`. -/
def updateParticles (self : ParticleSystem) : ParticleSystem :=
  { particleVec := updateParticlesLoop 0 self.particleVec }

/-- The loop of `ParticleSystem::checkLifespans`, from index `i` on: a particle
whose lifespan is below 0 gets type -1, and then the first particle of the
vector is erased when its type is -1. -/
def checkLifespansLoop (i : Nat) (v : List Particle) : List Particle :=
  if h : i < v.length then
    if v[i].getLifespan < 0 then
      let v1 := v.set i (v[i].setType (-1))
      have h0 : 0 < v1.length := by simp [v1]; omega
      if v1[0].getType = -1 then
        checkLifespansLoop (i + 1) (v1.eraseIdx 0)
      else
        checkLifespansLoop (i + 1) v1
    else
      checkLifespansLoop (i + 1) v
  else v
termination_by v.length - i
decreasing_by
  all_goals simp_wf
  all_goals omega

/-- The method `ParticleSystem::checkLifespans`. -/
def checkLifespans (self : ParticleSystem) : ParticleSystem :=
  { particleVec := checkLifespansLoop 0 self.particleVec }

/-! ## The tracker of the afterimages example -/

/-- The method `Tracker::addFrame`, inner loop over the children of joint `j`, from child `n` on:
push the joint's position, then the child's position. -/
def addFrameChildren (j : ofxBvhJoint) (n : Nat) (f : Frame) : Frame :=
  if h : n < j.children.length then
    addFrameChildren j (n + 1) ((f ++ [j.position]) ++ [j.children[n]])
  else f
termination_by j.children.length - n

/-- The method `Tracker::addFrame`, outer loop over the joints of `o`, from joint `i` on. -/
def addFrameJoints (o : ofxBvh) (i : Nat) (f : Frame) : Frame :=
  if h : i < o.joints.length then
    addFrameJoints o (i + 1) (addFrameChildren o.joints[i] 0 f)
  else f
termination_by o.joints.length - i

/-- The method `Tracker::addFrame`: fill `*f`, `push_front` it on the track, and `pop_back`
when the track has grown beyond 200 frames.  Returns the new `*f` and `*track_`. -/
def addFrame (f : Frame) (o : ofxBvh) (track_ : Track) : Frame × Track :=
  let f1 := addFrameJoints o 0 f
  let t1 := f1 :: track_
  let t2 := if t1.length > 200 then t1.dropLast else t1
  (f1, t2)

/-- The body of the inner loop of `Tracker::modifyVertices`: the displacement
`f` computed for vertex `v` at index `n` of a frame with blend factor `delta`,
added to `v`. -/
def modifyVertex (H : Host) (offset : ofVec3f) (delta : ℚ) (n : Nat) (v : ofVec3f) : ofVec3f :=
  let f : ofVec3f := ofVec3f.zero
  let f := { f with y := f.y - (-2.5) * (1 - H.sin (delta ^ 2 * H.PI)) }
  let f := { f with y := f.y + H.ofNoise (v.y * 0.0001 + offset.y) * 1.4 }
  let f := { f with x := f.x + H.ofSignedNoise (v.x * 0.0001 + offset.x) * 3 }
  let f := { f with z := f.z + H.ofSignedNoise (v.z * 0.0001 + offset.z) * 3 }
  let f :=
    if v.y < 0 then
      let f := { f with y := f.y * 0.02 }
      if n % 2 = 0 then
        { x := f.x * 3, y := f.y * 1.5, z := f.z * 3 }
      else
        { x := f.x * (-3), y := f.y * 1.5, z := f.z * 3 }
    else f
  v + f

/-- The method `Tracker::modifyVertices`, inner loop over the vertices of one frame, from `n` on. -/
def modifyVerticesFrame (H : Host) (offset : ofVec3f) (delta : ℚ) (n : Nat) (f : Frame) : Frame :=
  if h : n < f.length then
    modifyVerticesFrame H offset delta (n + 1) (f.set n (modifyVertex H offset delta n f[n]))
  else f
termination_by f.length - n
decreasing_by
  simp_wf
  omega

/-- The method `Tracker::modifyVertices`, outer loop over the frames of the track, from `i` on. -/
def modifyVerticesLoop (H : Host) (offset : ofVec3f) (i : Nat) (track : Track) : Track :=
  if h : i < track.length then
    let delta := ofMap i 0 track.length 0 1
    modifyVerticesLoop H offset (i + 1) (track.set i (modifyVerticesFrame H offset delta 0 track[i]))
  else track
termination_by track.length - i
decreasing_by
  simp_wf
  omega

/-- The method `Tracker::modifyVertices`. -/
def modifyVertices (H : Host) (offset : ofVec3f) (track : Track) : Track :=
  modifyVerticesLoop H offset 0 track

/-- The method `Tracker::cacheVertices`, inner loop over the frames, from `i` on, for the
pair of vertices `n`, `n + 1`.  `bound` is the value of `track.size() - 1`. -/
def cacheVerticesInner (H : Host) (track : Track) (n bound : Nat) (i : Nat) (norm : ofVec3f)
    (arr : BufferArray) : Option BufferArray :=
  if i < bound then
    let delta := ofMap i 0 track.length 0.1 1
    match track[i]? with
    | none => none
    | some f1 =>
      match f1[n]?, f1[n + 1]? with
      | some v1, some v2 =>
        let d := v1 - v2
        let c1 := H.normalized (d.crossed ⟨0, 1, 0⟩)
        let c := H.normalized (c1.crossed d)
        let norm := if i = 0 then c else norm
        let m := v1.scale delta + v2.scale (1 - delta)
        let norm := norm + (c - norm).scale 0.3
        let buf : Buffer := { norm := norm, v1 := v1, v2 := m }
        cacheVerticesInner H track n bound (i + 1) norm (arr ++ [buf])
      | _, _ => none
  else some arr
termination_by bound - i

/-- The method `Tracker::cacheVertices`, outer loop `for (n = 0; n < 52; n += 2)`. -/
def cacheVerticesOuter (H : Host) (track : Track) (n : Nat) (buffer : List BufferArray) :
    Option (List BufferArray) :=
  if n < 52 then
    match cacheVerticesInner H track n (sizeMinusOne track.length) 0 ofVec3f.zero [] with
    | none => none
    | some arr => cacheVerticesOuter H track (n + 2) (buffer ++ [arr])
  else some buffer
termination_by 52 - n

/-- The method `Tracker::cacheVertices`: clear `buffer`, then rebuild it from the track. -/
def cacheVertices (H : Host) (track : Track) (_buffer : List BufferArray) :
    Option (List BufferArray) :=
  let buffer : List BufferArray := []
  cacheVerticesOuter H track 0 buffer

/-- The method `Tracker::setupParticles`, the loop over the positions of `track[0]`, from
`j` on: while `drawClone` holds and fewer than 5000 particles exist, check the
lifespans and emit one particle at position `j`. -/
def setupParticlesLoop (f0 : Frame) (drawClone : Bool) (j : Nat) (ps : ParticleSystem) :
    ParticleSystem :=
  if h : j < f0.length then
    if drawClone && decide (ps.getSize < 5000) then
      let ps := checkLifespans ps
      let ps := emit ps f0[j] ⟨0, 0, 0⟩ 300 0
      setupParticlesLoop f0 drawClone (j + 1) ps
    else
      setupParticlesLoop f0 drawClone (j + 1) ps
  else ps
termination_by f0.length - j

/-- The method `Tracker::setupParticles`.  `t1` and `t2` are the values of
`int(ofGetElapsedTimef())` at the two reads of the clock (whole elapsed
seconds, non-negative).  The read `track[0]` of an empty track gives `none`.
Returns the particle system and `drawClone`. -/
def setupParticles (t1 t2 : Nat) (track : Track) (drawClone : Bool) (ps : ParticleSystem) :
    Option (ParticleSystem × Bool) :=
  let first : Option (ParticleSystem × Bool) :=
    if t1 % 2 = 0 then
      match track[0]? with
      | none => none
      | some f0 => some (setupParticlesLoop f0 drawClone 0 ps, false)
    else some (ps, drawClone)
  match first with
  | none => none
  | some (ps1, drawClone1) =>
    if t2 % 2 ≠ 0 then some (ps1, true) else some (ps1, drawClone1)

end Afterimages

/-! ## Notions used to state the theorems -/

/-- What one round of `updateParticles` does to a particle. -/
def Particle.moved (p : Particle) : Particle :=
  { pos := p.pos + p.heading, heading := p.heading, lifespan := p.lifespan - 1, type := p.type }

/-- Each coordinate of `p` lies between the coordinate of `h` plus `lo` and the
coordinate of `h` plus `hi`. -/
def ofVec3f.within (p h : ofVec3f) (lo hi : ℚ) : Prop :=
  (h.x + lo ≤ p.x ∧ p.x ≤ h.x + hi) ∧ (h.y + lo ≤ p.y ∧ p.y ≤ h.y + hi) ∧
    (h.z + lo ≤ p.z ∧ p.z ≤ h.z + hi)

instance (p h : ofVec3f) (lo hi : ℚ) : Decidable (ofVec3f.within p h lo hi) := by
  unfold ofVec3f.within
  infer_instance

/-- The two particles one round of `handleParticles` emits around the head
position `h`, as emitted: the first with lifespan 20, type 1, heading
(-1, 0.5, 0) and each coordinate within [h - 10, h + 9]; the second with
lifespan 5, type 1, heading (0, 0.5, 0) and each coordinate within [h - 2, h + 1]. -/
def headPair (h : ofVec3f) (a b : Particle) : Prop :=
  (a.lifespan = 20 ∧ a.type = 1 ∧ a.heading = ⟨-1, 1 / 2, 0⟩ ∧ a.pos.within h (-10) 9) ∧
  (b.lifespan = 5 ∧ b.type = 1 ∧ b.heading = ⟨0, 1 / 2, 0⟩ ∧ b.pos.within h (-2) 1)

instance (h : ofVec3f) (a b : Particle) : Decidable (headPair h a b) := by
  unfold headPair
  infer_instance

/-- The particles `kept` are what is left of the particles `old`: there are no
more of them, and each is one of the old particles, as it was or with its type
set to -1. -/
def staleOf (old kept : List Particle) : Prop :=
  kept.length ≤ old.length ∧ ∀ q, q ∈ kept → ∃ p, p ∈ old ∧ (q = p ∨ q = p.setType (-1))

/-- The afterimage particle `setupParticles` emits at a position: heading
(0, 0, 0), lifespan 300, type 0. -/
def afterimageAt (pos : ofVec3f) : Particle :=
  { pos := pos, heading := ⟨0, 0, 0⟩, lifespan := 300, type := 0 }

/-- The line strips of one segment of a bolt from `a` to `b`: `intensity` times
the three overlapping strips of widths and colours 0, 1, 2. -/
def boltStrips (widths : Nat → Int) (colors : Nat → ofColor) (intensity : Int)
    (a b : ofVec3f) : List LineStrip :=
  (List.replicate intensity.toNat
    [(⟨widths 0, colors 0, a, b⟩ : LineStrip), ⟨widths 1, colors 1, a, b⟩,
      ⟨widths 2, colors 2, a, b⟩]).flatten

/-- The segments of a connected chain that starts at `start` and runs through
the points `pts`: each segment starts where the one before it ends. -/
def boltChain (start : ofVec3f) (pts : List ofVec3f) : List (ofVec3f × ofVec3f) :=
  List.zip (start :: pts) pts

/-- The bones of a skeleton as pairs of end points: for every joint, in joint
order, and every child of it, in child order, the pair of the joint's position
and the child's position. -/
def bonePairs (o : ofxBvh) : List (ofVec3f × ofVec3f) :=
  o.joints.flatMap (fun j => j.children.map (fun c => (j.position, c)))

/-- The number of (joint, child) pairs of a skeleton: the sum over all joints
of the number of children. -/
def boneCount (o : ofxBvh) : Nat :=
  (o.joints.map (fun j => j.children.length)).sum

/-! ## Theorems on the particle system -/

/-- Loop invariant of `updateParticles`: the particles before index `i` are kept, the others moved. -/
theorem updateParticlesLoop_getElem? (n : Nat) :
    ∀ (i : Nat) (v : List Particle), v.length - i = n → ∀ k,
      (Lightning.updateParticlesLoop i v)[k]? = if k < i then v[k]? else (v[k]?).map Particle.moved := by
  induction n with
  | zero =>
    intro i v hn k
    rw [Lightning.updateParticlesLoop]
    have hi : ¬ i < v.length := by omega
    simp only [hi, dite_false]
    split
    · rfl
    · have : v[k]? = none := by
        apply List.getElem?_eq_none
        omega
      simp [this]
  | succ n ih =>
    intro i v hn k
    rw [Lightning.updateParticlesLoop]
    have hi : i < v.length := by omega
    simp only [hi, dite_true]
    rw [ih]
    · by_cases hk : k < i
      · have h1 : k < i + 1 := by omega
        have h2 : i ≠ k := by omega
        simp [hk, h1, List.getElem?_set, h2]
      · by_cases hki : k = i
        · subst hki
          simp [List.getElem?_set, hi, Particle.moved, Particle.setPos, Particle.getPos,
            Particle.getHeading, Particle.setLifespan, Particle.getLifespan]
        · have h1 : ¬ k < i + 1 := by omega
          have h2 : i ≠ k := by omega
          simp [hk, h1, List.getElem?_set, h2]
    · simp
      omega

/-- The method `updateParticles` is the element-wise move of the particle list. -/
theorem updateParticles_eq_map (ps : ParticleSystem) :
    (Lightning.updateParticles ps).particleVec = ps.particleVec.map Particle.moved := by
  apply List.ext_getElem?
  intro k
  simp [Lightning.updateParticles, updateParticlesLoop_getElem? _ 0 ps.particleVec rfl k]

/-- C1 (failing input): on two particles whose lifespan is -1, `checkLifespans`
erases only the first one and skips the second, which stays in the system with
lifespan -1 and its type 1; and a particle with lifespan -1 behind a live one
is only marked with type -1 and stays in the system. -/
theorem checkLifespans_leaves_expired_particle :
    Lightning.checkLifespans ⟨[⟨⟨0, 0, 0⟩, ⟨0, 0, 0⟩, -1, 1⟩, ⟨⟨1, 0, 0⟩, ⟨0, 0, 0⟩, -1, 1⟩]⟩
        = ⟨[⟨⟨1, 0, 0⟩, ⟨0, 0, 0⟩, -1, 1⟩]⟩
    ∧ Lightning.checkLifespans ⟨[⟨⟨0, 0, 0⟩, ⟨0, 0, 0⟩, 14, 1⟩, ⟨⟨1, 0, 0⟩, ⟨0, 0, 0⟩, -1, 1⟩]⟩
        = ⟨[⟨⟨0, 0, 0⟩, ⟨0, 0, 0⟩, 14, 1⟩, ⟨⟨1, 0, 0⟩, ⟨0, 0, 0⟩, -1, -1⟩]⟩
    ∧ ¬ (∀ ps : ParticleSystem, ∀ p ∈ (Lightning.checkLifespans ps).particleVec,
          ¬ p.getLifespan < 0) := by
  have h1 : Lightning.checkLifespans
      ⟨[⟨⟨0, 0, 0⟩, ⟨0, 0, 0⟩, -1, 1⟩, ⟨⟨1, 0, 0⟩, ⟨0, 0, 0⟩, -1, 1⟩]⟩
        = ⟨[⟨⟨1, 0, 0⟩, ⟨0, 0, 0⟩, -1, 1⟩]⟩ := by
    simp [Lightning.checkLifespans, Lightning.checkLifespansLoop, Particle.getLifespan,
      Particle.setType, Particle.getType]
  refine ⟨h1, ?_, ?_⟩
  · simp [Lightning.checkLifespans, Lightning.checkLifespansLoop, Particle.getLifespan,
      Particle.setType, Particle.getType]
  · intro h
    have := h ⟨[⟨⟨0, 0, 0⟩, ⟨0, 0, 0⟩, -1, 1⟩, ⟨⟨1, 0, 0⟩, ⟨0, 0, 0⟩, -1, 1⟩]⟩
      ⟨⟨1, 0, 0⟩, ⟨0, 0, 0⟩, -1, 1⟩ (by rw [h1]; simp)
    exact this (by simp [Particle.getLifespan])

/-- C2: `updateParticles` keeps the length and the order of the particle list,
and particle `i` of the result has position = old position + heading,
lifespan = old lifespan - 1, and the heading and type it had. -/
theorem updateParticles_decay_and_move (ps : ParticleSystem) :
    (Lightning.updateParticles ps).particleVec.length = ps.particleVec.length ∧
    ∀ (i : Nat) (p : Particle), ps.particleVec[i]? = some p →
      (Lightning.updateParticles ps).particleVec[i]? =
        some { pos := p.pos + p.heading, heading := p.heading,
               lifespan := p.lifespan - 1, type := p.type } := by
  rw [updateParticles_eq_map]
  refine ⟨by simp, ?_⟩
  intro i p hp
  simp [hp, Particle.moved]

/-- C3: `emit` appends exactly one particle carrying the four given values:
the list becomes the old list followed by that particle, `getSize` grows by 1,
and every earlier particle is unchanged. -/
theorem emit_appends_one_particle (ps : ParticleSystem) (pos_ heading_ : ofVec3f)
    (lifespan_ : ℚ) (type_ : Int) :
    (Lightning.emit ps pos_ heading_ lifespan_ type_).particleVec
        = ps.particleVec ++ [{ pos := pos_, heading := heading_,
                               lifespan := lifespan_, type := type_ }] ∧
    (Lightning.emit ps pos_ heading_ lifespan_ type_).getSize = ps.getSize + 1 ∧
    ∀ i : Nat, i < ps.getSize →
      (Lightning.emit ps pos_ heading_ lifespan_ type_).particleVec[i]? = ps.particleVec[i]? := by
  refine ⟨rfl, ?_, ?_⟩
  · simp [Lightning.emit, ParticleSystem.getSize]
  · intro i hi
    simp only [ParticleSystem.getSize] at hi
    simp [Lightning.emit, List.getElem?_append_left hi]
/-! ## Theorems on the tracker -/

/-- The track after `addFrame`, for any frame on entry. -/
theorem addFrame_track (f : Frame) (o : ofxBvh) (track_ : Track) (hlen : track_.length ≤ 200) :
    (Lightning.addFrame f o track_).2 = ((Lightning.addFrame f o track_).1 :: track_).take 200 := by
  simp only [Lightning.addFrame]
  split
  · rename_i h
    have h200 : track_.length = 200 := by
      simp at h
      omega
    rw [List.dropLast_eq_take]
    simp [h200]
  · rename_i h
    have h200 : track_.length < 200 := by
      simp at h
      omega
    rw [List.take_of_length_le]
    simp
    omega

/-- C4: for a track of at most 200 frames and a frame that is empty on entry,
the track after `addFrame` is the first 200 elements of the new frame followed
by the old track: the new frame is at index 0, the track holds at most 200
frames, and when the old track was full its last (oldest) frame is dropped. -/
theorem addFrame_keeps_newest_200 (o : ofxBvh) (track_ : Track) (hlen : track_.length ≤ 200) :
    (Lightning.addFrame [] o track_).2
        = ((Lightning.addFrame [] o track_).1 :: track_).take 200 ∧
    (Lightning.addFrame [] o track_).2[0]? = some (Lightning.addFrame [] o track_).1 ∧
    (Lightning.addFrame [] o track_).2.length ≤ 200 ∧
    (track_.length < 200 →
      (Lightning.addFrame [] o track_).2 = (Lightning.addFrame [] o track_).1 :: track_) ∧
    (track_.length = 200 →
      (Lightning.addFrame [] o track_).2
        = (Lightning.addFrame [] o track_).1 :: track_.dropLast) := by
  have h := addFrame_track [] o track_ hlen
  refine ⟨h, ?_, ?_, ?_, ?_⟩
  · rw [h]; simp
  · rw [h]; simp
  · intro hlt
    rw [h, List.take_of_length_le]
    simp
    omega
  · intro heq
    rw [h, List.take_succ_cons, List.dropLast_eq_take]
    simp [heq]

/-- C4 at a track of one frame and a skeleton of one joint with one child. -/
theorem addFrame_keeps_newest_200_witness :
    ([[(⟨9, 9, 9⟩ : ofVec3f)]] : Track).length ≤ 200 ∧
    (Lightning.addFrame [] ⟨[⟨⟨0, 0, 0⟩, [⟨1, 1, 1⟩]⟩]⟩ [[⟨9, 9, 9⟩]]).2
        = ((Lightning.addFrame [] ⟨[⟨⟨0, 0, 0⟩, [⟨1, 1, 1⟩]⟩]⟩ [[⟨9, 9, 9⟩]]).1
            :: [[⟨9, 9, 9⟩]]).take 200 :=
  ⟨by decide,
   (addFrame_keeps_newest_200 ⟨[⟨⟨0, 0, 0⟩, [⟨1, 1, 1⟩]⟩]⟩ [[⟨9, 9, 9⟩]] (by decide)).1⟩

/-- Loop invariant of the inner loop of `modifyVertices`: the vertices before index `n` are kept, the others displaced. -/
theorem modifyVerticesFrame_getElem? (H : Host) (offset : ofVec3f) (delta : ℚ) (m : Nat) :
    ∀ (n : Nat) (f : Frame), f.length - n = m → ∀ k,
      (Lightning.modifyVerticesFrame H offset delta n f)[k]?
        = if k < n then f[k]? else (f[k]?).map (Lightning.modifyVertex H offset delta k) := by
  induction m with
  | zero =>
    intro n f hm k
    rw [Lightning.modifyVerticesFrame]
    have hn : ¬ n < f.length := by omega
    simp only [hn, dite_false]
    split
    · rfl
    · have : f[k]? = none := by
        apply List.getElem?_eq_none
        omega
      simp [this]
  | succ m ih =>
    intro n f hm k
    rw [Lightning.modifyVerticesFrame]
    have hn : n < f.length := by omega
    simp only [hn, dite_true]
    rw [ih]
    · by_cases hk : k < n
      · have h1 : k < n + 1 := by omega
        have h2 : n ≠ k := by omega
        simp [hk, h1, List.getElem?_set, h2]
      · by_cases hkn : k = n
        · subst hkn
          simp [List.getElem?_set, hn]
        · have h1 : ¬ k < n + 1 := by omega
          have h2 : n ≠ k := by omega
          simp [hk, h1, List.getElem?_set, h2]
    · simp
      omega

/-- Loop invariant of the outer loop of `modifyVertices`: the frames before index `i` are kept, every other frame is run through the inner loop with its own blend factor. -/
theorem modifyVerticesLoop_getElem? (H : Host) (offset : ofVec3f) (m : Nat) :
    ∀ (i : Nat) (track : Track), track.length - i = m → ∀ k,
      (Lightning.modifyVerticesLoop H offset i track)[k]?
        = if k < i then track[k]?
          else (track[k]?).map
            (Lightning.modifyVerticesFrame H offset (ofMap k 0 track.length 0 1) 0) := by
  induction m with
  | zero =>
    intro i track hm k
    rw [Lightning.modifyVerticesLoop]
    have hn : ¬ i < track.length := by omega
    simp only [hn, dite_false]
    split
    · rfl
    · have : track[k]? = none := by
        apply List.getElem?_eq_none
        omega
      simp [this]
  | succ m ih =>
    intro i track hm k
    rw [Lightning.modifyVerticesLoop]
    have hn : i < track.length := by omega
    simp only [hn, dite_true]
    rw [ih]
    · by_cases hk : k < i
      · have h1 : k < i + 1 := by omega
        have h2 : i ≠ k := by omega
        simp [hk, h1, List.getElem?_set, h2]
      · by_cases hkn : k = i
        · subst hkn
          simp [List.getElem?_set, hn]
        · have h1 : ¬ k < i + 1 := by omega
          have h2 : i ≠ k := by omega
          simp [hk, h1, List.getElem?_set, h2]
    · simp
      omega

/-- Every vertex of every frame is displaced: vertex `n` of frame `i` becomes
`modifyVertex` of it, with the blend factor of frame `i`. -/
theorem modifyVertices_getElem? (H : Host) (offset : ofVec3f) (track : Track) (i n : Nat) :
    ((Lightning.modifyVertices H offset track)[i]?).bind (fun f => f[n]?)
      = ((track[i]?).bind (fun f => f[n]?)).map
          (Lightning.modifyVertex H offset (ofMap i 0 track.length 0 1) n) := by
  rw [Lightning.modifyVertices, modifyVerticesLoop_getElem? H offset _ 0 track rfl i]
  simp only [Nat.not_lt_zero, if_false]
  cases track[i]? with
  | none => rfl
  | some f =>
    simp only [Option.map_some', Option.some_bind]
    rw [modifyVerticesFrame_getElem? H offset _ _ 0 f rfl n]
    simp

/-- The blend factor of the current frame is 0. -/
theorem ofMap_zero (size : ℚ) : ofMap 0 0 size 0 1 = 0 := by
  unfold ofMap
  split <;> simp

/-- With blend factor 0 the displacement has a positive `y`. -/
theorem modifyVertex_current_y (H : Host) (offset : ofVec3f) (n : Nat) (v : ofVec3f)
    (hsin : H.sin 0 = 0) (hnoise : ∀ x, 0 ≤ H.ofNoise x ∧ H.ofNoise x ≤ 1) :
    v.y < (Lightning.modifyVertex H offset 0 n v).y := by
  have h1 := (hnoise (v.y * 0.0001 + offset.y)).1
  simp only [Lightning.modifyVertex, ofVec3f.zero]
  norm_num [hsin]
  split
  · split
    · show v.y < v.y + _
      norm_num
      nlinarith
    · show v.y < v.y + _
      norm_num
      nlinarith
  · show v.y < v.y + _
    norm_num
    nlinarith

/-- C5 (what the code does): with `sin 0 = 0` and `ofNoise` ranging over
[0, 1], a call of `modifyVertices` moves every vertex of the current frame
`track[0]`: its `y` becomes strictly larger. -/
theorem modifyVertices_displaces_current_frame (H : Host) (offset : ofVec3f) (track : Track)
    (f0 : Frame) (n : Nat) (v : ofVec3f)
    (hsin : H.sin 0 = 0) (hnoise : ∀ x, 0 ≤ H.ofNoise x ∧ H.ofNoise x ≤ 1)
    (h0 : track[0]? = some f0) (hv : f0[n]? = some v) :
    ∃ w, ((Lightning.modifyVertices H offset track)[0]?).bind (fun f => f[n]?) = some w
      ∧ v.y < w.y := by
  refine ⟨Lightning.modifyVertex H offset 0 n v, ?_, modifyVertex_current_y H offset n v hsin hnoise⟩
  rw [modifyVertices_getElem?, h0]
  simp [hv, ofMap_zero]

/-- C5 at the track of one frame with the one vertex (0, 0, 0). -/
theorem modifyVertices_displaces_current_frame_witness :
    ∃ w, ((Lightning.modifyVertices ⟨fun _ => 1 / 2, fun _ => 0, fun _ => 0, 355 / 113, fun u => u⟩
        ⟨0, 0, 0⟩ [[⟨0, 0, 0⟩]])[0]?).bind (fun f => f[0]?) = some w ∧ (0 : ℚ) < w.y :=
  modifyVertices_displaces_current_frame ⟨fun _ => 1 / 2, fun _ => 0, fun _ => 0, 355 / 113, fun u => u⟩
    ⟨0, 0, 0⟩ [[⟨0, 0, 0⟩]] [⟨0, 0, 0⟩] 0 ⟨0, 0, 0⟩ rfl (fun _ => by norm_num) rfl rfl

/-- C5 (failing input): on the track of one frame with the one vertex (0, 0, 0),
with `ofNoise` constantly 1/2 and `ofSignedNoise` constantly 0, `modifyVertices`
moves the vertex of the current frame to (0, 16/5, 0). -/
theorem modifyVertices_current_frame_changed :
    Lightning.modifyVertices ⟨fun _ => 1 / 2, fun _ => 0, fun _ => 0, 355 / 113, fun u => u⟩
        ⟨0, 0, 0⟩ [[⟨0, 0, 0⟩]] = [[⟨0, 16 / 5, 0⟩]]
    ∧ (Lightning.modifyVertices ⟨fun _ => 1 / 2, fun _ => 0, fun _ => 0, 355 / 113, fun u => u⟩
        ⟨0, 0, 0⟩ [[⟨0, 0, 0⟩]])[0]? ≠ some [⟨0, 0, 0⟩] := by
  have h : Lightning.modifyVertices ⟨fun _ => 1 / 2, fun _ => 0, fun _ => 0, 355 / 113, fun u => u⟩
        ⟨0, 0, 0⟩ [[⟨0, 0, 0⟩]] = [[⟨0, 16 / 5, 0⟩]] := by
    simp [Lightning.modifyVertices, Lightning.modifyVerticesLoop, Lightning.modifyVerticesFrame,
      Lightning.modifyVertex, ofMap, FLT_EPSILON, ofVec3f.zero]
    show ofVec3f.add _ _ = _
    simp [ofVec3f.add]
    norm_num
  refine ⟨h, ?_⟩
  rw [h]
  simp

/-- Loop invariant of the inner loop of `cacheVertices`: when every frame from
`i` up to `bound` can be read at `n` and `n + 1`, the loop returns, keeps what
`arr` held, and appends one entry for each of those frames. -/
theorem cacheVerticesInner_spec (H : Host) (track : Track) (n bound : Nat) (m : Nat) :
    ∀ (i : Nat) (norm : ofVec3f) (arr : BufferArray), bound - i = m → i ≤ bound →
      (∀ j, i ≤ j → j < bound → ∃ f v1 v2,
          track[j]? = some f ∧ f[n]? = some v1 ∧ f[n + 1]? = some v2) →
      ∃ arr1, Lightning.cacheVerticesInner H track n bound i norm arr = some arr1 ∧
        arr1.length = arr.length + (bound - i) ∧
        (∀ k, k < arr.length → arr1[k]? = arr[k]?) ∧
        ∀ j, i ≤ j → j < bound → ∀ f v1 v2,
          track[j]? = some f → f[n]? = some v1 → f[n + 1]? = some v2 →
          ∃ e, arr1[arr.length + (j - i)]? = some e ∧ e.v1 = v1 ∧
            e.v2 = v1.scale (ofMap j 0 track.length 0.1 1)
                    + v2.scale (1 - ofMap j 0 track.length 0.1 1) := by
  induction m with
  | zero =>
    intro i norm arr hm hi _
    rw [Lightning.cacheVerticesInner]
    have hn : ¬ i < bound := by omega
    simp only [hn, if_false]
    refine ⟨arr, rfl, by omega, fun _ _ => rfl, ?_⟩
    intro j h1 h2
    omega
  | succ m ih =>
    intro i norm arr hm hi hread
    rw [Lightning.cacheVerticesInner]
    have hn : i < bound := by omega
    simp only [hn, if_true]
    obtain ⟨f, v1, v2, hf, hv1, hv2⟩ := hread i (Nat.le_refl i) hn
    simp only [hf, hv1, hv2]
    obtain ⟨arr1, hres, hlen, hkeep, hnew⟩ :=
      ih (i + 1) _ (arr ++ [_]) (by omega) (by omega)
        (fun j h1 h2 => hread j (by omega) h2)
    refine ⟨arr1, hres, ?_, ?_, ?_⟩
    · rw [hlen]
      simp
      omega
    · intro k hk
      rw [hkeep k (by simp; omega)]
      exact List.getElem?_append_left hk
    · intro j h1 h2 g w1 w2 hg hw1 hw2
      by_cases hji : j = i
      · subst hji
        rw [hf] at hg
        cases hg
        rw [hv1] at hw1
        rw [hv2] at hw2
        cases hw1
        cases hw2
        have := hkeep arr.length (by simp)
        simp only [Nat.sub_self, Nat.add_zero]
        rw [this]
        simp
      · obtain ⟨e, he, hprop⟩ := hnew j (by omega) h2 g w1 w2 hg hw1 hw2
        refine ⟨e, ?_, hprop⟩
        rw [← he]
        congr 1
        simp
        omega

/-- Loop invariant of the outer loop of `cacheVertices`: when the inner loop
returns for every even `n` below 52, the outer loop returns, keeps what `buffer`
held, and appends the array of each of `n`, `n + 2`, ... below 52. -/
theorem cacheVerticesOuter_spec (H : Host) (track : Track)
    (hinner : ∀ n, n % 2 = 0 → n < 52 → ∃ arr,
      Lightning.cacheVerticesInner H track n (sizeMinusOne track.length) 0 ofVec3f.zero []
        = some arr) (m : Nat) :
    ∀ (n : Nat) (buffer : List BufferArray), n % 2 = 0 → 52 - n ≤ m →
      ∃ buf1, Lightning.cacheVerticesOuter H track n buffer = some buf1 ∧
        buf1.length = buffer.length + (52 - n + 1) / 2 ∧
        (∀ k, k < buffer.length → buf1[k]? = buffer[k]?) ∧
        ∀ k, n + 2 * k < 52 → ∃ arr, buf1[buffer.length + k]? = some arr ∧
          Lightning.cacheVerticesInner H track (n + 2 * k) (sizeMinusOne track.length) 0
            ofVec3f.zero [] = some arr := by
  induction m with
  | zero =>
    intro n buffer _ hm
    rw [Lightning.cacheVerticesOuter]
    have hn : ¬ n < 52 := by omega
    simp only [hn, if_false]
    refine ⟨buffer, rfl, by omega, fun _ _ => rfl, ?_⟩
    intro k hk
    omega
  | succ m ih =>
    intro n buffer heven hm
    by_cases hn : n < 52
    · rw [Lightning.cacheVerticesOuter]
      simp only [hn, if_true]
      obtain ⟨arr, harr⟩ := hinner n heven hn
      simp only [harr]
      obtain ⟨buf1, hres, hlen, hkeep, hnew⟩ := ih (n + 2) (buffer ++ [arr]) (by omega) (by omega)
      refine ⟨buf1, hres, ?_, ?_, ?_⟩
      · rw [hlen]
        simp
        omega
      · intro k hk
        rw [hkeep k (by simp; omega)]
        exact List.getElem?_append_left hk
      · intro k hk
        cases k with
        | zero =>
          refine ⟨arr, ?_, harr⟩
          rw [Nat.add_zero, hkeep buffer.length (by simp)]
          simp
        | succ k =>
          obtain ⟨a, ha, hin⟩ := hnew k (by omega)
          refine ⟨a, ?_, ?_⟩
          · rw [← ha]
            congr 1
            simp
            omega
          · rw [← hin]
            congr 1
            omega
    · rw [Lightning.cacheVerticesOuter]
      simp only [hn, if_false]
      refine ⟨buffer, rfl, by omega, fun _ _ => rfl, ?_⟩
      intro k hk
      omega

/-- C6: for a non-empty track of `s` frames, each with at least 52 positions,
`cacheVertices` reads no index out of range and returns a buffer of exactly 26
arrays, each of exactly `s - 1` entries, where entry `i` of array `k` has
`v1 = track[i][2k]` and `v2 = d * track[i][2k] + (1 - d) * track[i][2k+1]` with
`d = 0.1 + 0.9 * i / s`; and the result does not depend on what `buffer` held. -/
theorem cacheVertices_stores_track_positions (H : Host) (track : Track)
    (old : List BufferArray) (hne : track ≠ []) (h52 : ∀ f, f ∈ track → 52 ≤ f.length) :
    ∃ buffer, Lightning.cacheVertices H track old = some buffer ∧
      buffer.length = 26 ∧
      (∀ k, k < 26 → ∃ arr, buffer[k]? = some arr ∧ arr.length = track.length - 1 ∧
        ∀ i, i < track.length - 1 → ∃ f v1 v2 e,
          track[i]? = some f ∧ f[2 * k]? = some v1 ∧ f[2 * k + 1]? = some v2 ∧
          arr[i]? = some e ∧ e.v1 = v1 ∧
          e.v2 = v1.scale (1 / 10 + 9 / 10 * (i : ℚ) / (track.length : ℚ))
                  + v2.scale (1 - (1 / 10 + 9 / 10 * (i : ℚ) / (track.length : ℚ)))) ∧
      Lightning.cacheVertices H track old = Lightning.cacheVertices H track [] := by
  have hlen : 0 < track.length := List.length_pos.mpr hne
  have hbound : sizeMinusOne track.length = track.length - 1 := by
    unfold sizeMinusOne
    rw [if_neg (by omega)]
  have hread : ∀ n, n % 2 = 0 → n < 52 → ∀ j, 0 ≤ j → j < track.length - 1 → ∃ f v1 v2,
      track[j]? = some f ∧ f[n]? = some v1 ∧ f[n + 1]? = some v2 := by
    intro n heven hn j _ hj
    have hjl : j < track.length := by omega
    have hf := h52 track[j] (List.getElem_mem _)
    have h1 : n < track[j].length := by omega
    have h2 : n + 1 < track[j].length := by omega
    exact ⟨track[j], track[j][n], track[j][n + 1], List.getElem?_eq_getElem hjl,
      List.getElem?_eq_getElem h1, List.getElem?_eq_getElem h2⟩
  have hinner : ∀ n, n % 2 = 0 → n < 52 → ∃ arr,
      Lightning.cacheVerticesInner H track n (sizeMinusOne track.length) 0 ofVec3f.zero []
        = some arr := by
    intro n heven hn
    rw [hbound]
    obtain ⟨arr, harr, _⟩ := cacheVerticesInner_spec H track n (track.length - 1) _ 0
      ofVec3f.zero [] rfl (Nat.zero_le _) (hread n heven hn)
    exact ⟨arr, harr⟩
  obtain ⟨buffer, hres, hblen, _, hnew⟩ :=
    cacheVerticesOuter_spec H track hinner 52 0 [] rfl (by omega)
  refine ⟨buffer, hres, by simpa using hblen, ?_, rfl⟩
  intro k hk
  obtain ⟨arr, harr, hin⟩ := hnew k (by omega)
  rw [hbound] at hin
  obtain ⟨arr1, harr1, hlen1, _, hentries⟩ := cacheVerticesInner_spec H track (0 + 2 * k)
    (track.length - 1) _ 0 ofVec3f.zero [] rfl (Nat.zero_le _)
    (hread (0 + 2 * k) (by omega) (by omega))
  rw [hin] at harr1
  cases harr1
  refine ⟨arr, by simpa using harr, by simpa using hlen1, ?_⟩
  intro i hi
  obtain ⟨f, v1, v2, hf, hv1, hv2⟩ := hread (0 + 2 * k) (by omega) (by omega) i (Nat.zero_le _) hi
  obtain ⟨e, he, hev1, hev2⟩ := hentries i (Nat.zero_le _) hi f v1 v2 hf hv1 hv2
  have hd : ofMap (i : ℚ) 0 (track.length : ℚ) 0.1 1
      = 1 / 10 + 9 / 10 * (i : ℚ) / (track.length : ℚ) := by
    have hs : ¬ |(0 : ℚ) - (track.length : ℚ)| < FLT_EPSILON := by
      have h1 : (1 : ℚ) ≤ (track.length : ℚ) := by exact_mod_cast hlen
      rw [zero_sub, abs_neg, abs_of_nonneg (by linarith)]
      unfold FLT_EPSILON
      intro h
      norm_num at h
      linarith
    unfold ofMap
    rw [if_neg hs]
    ring
  refine ⟨f, v1, v2, e, hf, by simpa using hv1, by simpa using hv2, by simpa using he, hev1, ?_⟩
  rw [hev2, hd]

/-- C6 at a track of two frames of 52 positions each and a buffer that held one entry. -/
theorem cacheVertices_stores_track_positions_witness :
    ([List.replicate 52 ⟨0, 0, 0⟩, List.replicate 52 ⟨1, 1, 1⟩] : Track) ≠ [] ∧
    (∀ f, f ∈ ([List.replicate 52 ⟨0, 0, 0⟩, List.replicate 52 ⟨1, 1, 1⟩] : Track) →
      52 ≤ f.length) ∧
    ∃ buffer, Lightning.cacheVertices ⟨fun _ => 1 / 2, fun _ => 0, fun _ => 0, 355 / 113, fun u => u⟩
        [List.replicate 52 ⟨0, 0, 0⟩, List.replicate 52 ⟨1, 1, 1⟩] [[⟨⟨5, 5, 5⟩, ⟨5, 5, 5⟩, ⟨5, 5, 5⟩⟩]]
          = some buffer ∧ buffer.length = 26 :=
  have hne : ([List.replicate 52 ⟨0, 0, 0⟩, List.replicate 52 ⟨1, 1, 1⟩] : Track) ≠ [] := by
    simp
  have h52 : ∀ f, f ∈ ([List.replicate 52 ⟨0, 0, 0⟩, List.replicate 52 ⟨1, 1, 1⟩] : Track) →
      52 ≤ f.length := by
    intro f hf
    simp only [List.mem_cons, List.mem_singleton, List.not_mem_nil, or_false] at hf
    rcases hf with rfl | rfl <;> simp
  ⟨hne, h52,
    (cacheVertices_stores_track_positions ⟨fun _ => 1 / 2, fun _ => 0, fun _ => 0, 355 / 113, fun u => u⟩
      [List.replicate 52 ⟨0, 0, 0⟩, List.replicate 52 ⟨1, 1, 1⟩]
      [[⟨⟨5, 5, 5⟩, ⟨5, 5, 5⟩, ⟨5, 5, 5⟩⟩]] hne h52).imp (fun _ h => ⟨h.1, h.2.1⟩)⟩

/-- A draw of `rand() % 20`, as a rational, lies in [0, 19]. -/
theorem rand_mod_20 (v : Nat) :
    (0 : ℚ) ≤ ((v % 20 : Nat) : ℚ) ∧ ((v % 20 : Nat) : ℚ) ≤ 19 := by
  constructor
  · exact Nat.cast_nonneg _
  · have : v % 20 ≤ 19 := by omega
    exact_mod_cast this

/-- A draw of `rand() % 4`, as a rational, lies in [0, 3]. -/
theorem rand_mod_4 (v : Nat) :
    (0 : ℚ) ≤ ((v % 4 : Nat) : ℚ) ∧ ((v % 4 : Nat) : ℚ) ≤ 3 := by
  constructor
  · exact Nat.cast_nonneg _
  · have : v % 4 ≤ 3 := by omega
    exact_mod_cast this

/-- Loop invariant of `handleParticles`: from round `j` on, the loop returns
and appends `8 - j` pairs of particles around the head position. -/
theorem handleParticlesLoop_spec (track : Track) (f0 : Frame) (h : ofVec3f)
    (h0 : track[0]? = some f0) (h21 : f0[21]? = some h) (m : Nat) :
    ∀ (j : Nat) (ps : ParticleSystem) (r : RandState), 8 - j = m →
      ∃ (new : List Particle) (r1 : RandState),
        Lightning.handleParticlesLoop track j ps r = some (⟨ps.particleVec ++ new⟩, r1) ∧
        new.length = 2 * (8 - j) ∧
        ∀ k, k < 8 - j → ∃ a b, new[2 * k]? = some a ∧ new[2 * k + 1]? = some b ∧
          headPair h a b := by
  induction m with
  | zero =>
    intro j ps r hm
    rw [Lightning.handleParticlesLoop]
    have hj : ¬ j < 8 := by omega
    simp only [hj, if_false]
    refine ⟨[], r, by simp, by simp only [List.length_nil]; omega, ?_⟩
    intro k hk
    omega
  | succ m ih =>
    intro j ps r hm
    rw [Lightning.handleParticlesLoop]
    have hj : j < 8 := by omega
    simp only [hj, if_true, h0, h21]
    obtain ⟨a0, ha0⟩ : ∃ a0 : Particle, a0 =
        ⟨⟨h.x + ((r.value % 20 : Nat) : ℚ) - 10, h.y + ((r.advance.value % 20 : Nat) : ℚ) - 10,
          h.z + ((r.advance.advance.value % 20 : Nat) : ℚ) - 10⟩,
         ⟨(((r.advance.advance.advance.value % 1 : Nat) : Int) - 1 : Int), 0.5,
          (((r.advance.advance.advance.advance.value % 1 : Nat) : Int) : Int)⟩, 20, 1⟩ :=
      ⟨_, rfl⟩
    obtain ⟨b0, hb0⟩ : ∃ b0 : Particle, b0 =
        ⟨⟨h.x + ((r.advance.advance.advance.advance.advance.value % 4 : Nat) : ℚ) - 2,
          h.y + ((r.advance.advance.advance.advance.advance.advance.value % 4 : Nat) : ℚ) - 2,
          h.z + ((r.advance.advance.advance.advance.advance.advance.advance.value % 4 : Nat) : ℚ)
            - 2⟩, ⟨0, 0.5, 0⟩, 5, 1⟩ :=
      ⟨_, rfl⟩
    obtain ⟨new, r1, hres, hlen, hpairs⟩ := ih (j + 1) ⟨(ps.particleVec ++ [a0]) ++ [b0]⟩
      r.advance.advance.advance.advance.advance.advance.advance.advance (by omega)
    refine ⟨a0 :: b0 :: new, r1, ?_, ?_, ?_⟩
    · simp only [Lightning.emit, Particle.init, ← ha0, ← hb0]
      rw [hres]
      simp
    · simp [hlen]
      omega
    · intro k hk
      cases k with
      | zero =>
        refine ⟨a0, b0, by simp, by simp, ?_⟩
        rw [ha0, hb0]
        have b1 := rand_mod_20 r.value
        have b2 := rand_mod_20 r.advance.value
        have b3 := rand_mod_20 r.advance.advance.value
        have c1 := rand_mod_4 r.advance.advance.advance.advance.advance.value
        have c2 := rand_mod_4 r.advance.advance.advance.advance.advance.advance.value
        have c3 := rand_mod_4 r.advance.advance.advance.advance.advance.advance.advance.value
        refine ⟨⟨rfl, rfl, ?_, ⟨?_, ?_⟩, ⟨?_, ?_⟩, ⟨?_, ?_⟩⟩,
          ⟨rfl, rfl, ?_, ⟨?_, ?_⟩, ⟨?_, ?_⟩, ⟨?_, ?_⟩⟩⟩
        · simp only [Nat.mod_one]
          norm_num
        all_goals first
          | (norm_num; done)
          | (simp only []; linarith)
      | succ k =>
        obtain ⟨a, b, ha, hb, hab⟩ := hpairs k (by omega)
        refine ⟨a, b, ?_, ?_, hab⟩
        · rw [← ha]
          have : 2 * (k + 1) = (2 * k) + 1 + 1 := by ring
          rw [this]
          simp
        · rw [← hb]
          have : 2 * (k + 1) + 1 = (2 * k + 1) + 1 + 1 := by ring
          rw [this]
          simp

theorem staleOf_refl (a : List Particle) : staleOf a a :=
  ⟨Nat.le_refl _, fun q hq => ⟨q, hq, Or.inl rfl⟩⟩

/-- What is left of what is left of `a` is left of `a`. -/
theorem staleOf_trans {a b c : List Particle} (h1 : staleOf a b) (h2 : staleOf b c) :
    staleOf a c := by
  refine ⟨Nat.le_trans h2.1 h1.1, ?_⟩
  intro q hq
  obtain ⟨p, hp, hqp⟩ := h2.2 q hq
  obtain ⟨p0, hp0, hpp0⟩ := h1.2 p hp
  refine ⟨p0, hp0, ?_⟩
  rcases hqp with rfl | rfl <;> rcases hpp0 with rfl | rfl
  · exact Or.inl rfl
  · exact Or.inr rfl
  · exact Or.inr rfl
  · exact Or.inr rfl

/-- Setting the type of one particle to -1 gives what is left of the list. -/
theorem staleOf_set (a : List Particle) (i : Nat) (h : i < a.length) :
    staleOf a (a.set i (a[i].setType (-1))) := by
  refine ⟨by simp, ?_⟩
  intro q hq
  rcases List.mem_or_eq_of_mem_set hq with hq | rfl
  · exact ⟨q, hq, Or.inl rfl⟩
  · exact ⟨a[i], List.getElem_mem _, Or.inr rfl⟩

/-- Erasing the first particle gives what is left of the list. -/
theorem staleOf_tail (a : List Particle) : staleOf a a.tail := by
  refine ⟨by simp, ?_⟩
  intro q hq
  exact ⟨q, List.mem_of_mem_tail hq, Or.inl rfl⟩

/-- The loop of `checkLifespans` leaves a trailing run of particles alone when
none of them has a lifespan below 0 or the type -1. -/
theorem checkLifespansLoop_append_fresh (m : Nat) :
    ∀ (i : Nat) (a b : List Particle), (a ++ b).length - i ≤ m →
      (∀ p, p ∈ b → ¬ p.getLifespan < 0) →
      (∀ p, p ∈ b → p.getType ≠ -1) →
      ∃ a1, Afterimages.checkLifespansLoop i (a ++ b) = a1 ++ b ∧ staleOf a a1 := by
  induction m with
  | zero =>
    intro i a b hm _ _
    rw [Afterimages.checkLifespansLoop]
    have hi : ¬ i < (a ++ b).length := by omega
    simp only [hi, dite_false]
    exact ⟨a, rfl, staleOf_refl a⟩
  | succ m ih =>
    intro i a b hm hlife htype
    rw [Afterimages.checkLifespansLoop]
    by_cases hi : i < (a ++ b).length
    swap
    · simp only [hi, dite_false]
      exact ⟨a, rfl, staleOf_refl a⟩
    simp only [hi, dite_true]
    by_cases hia : i < a.length
    · have hget : (a ++ b)[i] = a[i] := List.getElem_append_left hia
      by_cases hdead : a[i].getLifespan < 0
      · simp only [hget, hdead, if_true, List.set_append_left _ _ hia]
        have hpos : 0 < (a.set i (a[i].setType (-1))).length := by
          simp
          omega
        have hpos2 : 0 < ((a.set i (a[i].setType (-1))) ++ b).length := by
          rw [List.length_append]
          omega
        have hfront : ((a.set i (a[i].setType (-1))) ++ b)[0]
            = (a.set i (a[i].setType (-1)))[0] := List.getElem_append_left hpos
        simp only [hfront]
        split
        · rw [List.eraseIdx_append_of_lt_length hpos, List.eraseIdx_zero]
          obtain ⟨a1, hres, hst⟩ := ih (i + 1) (a.set i (a[i].setType (-1))).tail b
            (by
              simp only [List.length_append, List.length_tail, List.length_set] at hm ⊢
              omega) hlife htype
          exact ⟨a1, hres, staleOf_trans (staleOf_trans (staleOf_set a i hia) (staleOf_tail _)) hst⟩
        · obtain ⟨a1, hres, hst⟩ := ih (i + 1) (a.set i (a[i].setType (-1))) b
            (by
              simp only [List.length_append, List.length_set] at hm ⊢
              omega) hlife htype
          exact ⟨a1, hres, staleOf_trans (staleOf_set a i hia) hst⟩
      · simp only [hget, hdead, if_false]
        exact ih (i + 1) a b (by omega) hlife htype
    · have hmem : (a ++ b)[i] ∈ b := by
        rw [List.getElem_append_right (by omega)]
        exact List.getElem_mem _
      have halive := hlife _ hmem
      simp only [halive, if_false]
      exact ih (i + 1) a b (by omega) hlife htype

/-- The loop of `setupParticles` changes nothing when `drawClone` is false or
5000 particles or more exist. -/
theorem setupParticlesLoop_idle (f0 : Frame) (drawClone : Bool) (ps : ParticleSystem)
    (hidle : drawClone = false ∨ 5000 ≤ ps.getSize) (m : Nat) :
    ∀ j, f0.length - j = m → Afterimages.setupParticlesLoop f0 drawClone j ps = ps := by
  have hcond : (drawClone && decide (ps.getSize < 5000)) = false := by
    rcases hidle with h | h
    · simp [h]
    · have : ¬ ps.getSize < 5000 := by omega
      simp [this]
  induction m with
  | zero =>
    intro j hm
    rw [Afterimages.setupParticlesLoop]
    have hj : ¬ j < f0.length := by omega
    simp only [hj, dite_false]
  | succ m ih =>
    intro j hm
    rw [Afterimages.setupParticlesLoop]
    have hj : j < f0.length := by omega
    simp only [hj, dite_true, hcond]
    exact ih (j + 1) (by omega)

/-- Loop invariant of `setupParticles` with `drawClone` true: from position
`j` on, the loop appends one afterimage particle for each of the next `k`
positions, in order, emits only while fewer than 5000 particles exist and
stops emitting only when 5000 exist; the afterimage particles `em` emitted so
far stay as they are. -/
theorem setupParticlesLoop_spec (f0 : Frame) (m : Nat) :
    ∀ (j : Nat) (old : List Particle) (em : List ofVec3f), f0.length - j = m →
      ∃ (kept : List Particle) (k : Nat),
        Afterimages.setupParticlesLoop f0 true j ⟨old ++ em.map afterimageAt⟩
          = ⟨kept ++ (em ++ (f0.drop j).take k).map afterimageAt⟩ ∧
        staleOf old kept ∧ k ≤ f0.length - j ∧
        (k < f0.length - j → 5000 ≤ kept.length + (em.length + k)) ∧
        (0 < k → kept.length + (em.length + k) ≤ 5000) ∧
        (5000 ≤ old.length + em.length → k = 0 ∧ kept = old) := by
  induction m with
  | zero =>
    intro j old em hm
    rw [Afterimages.setupParticlesLoop]
    have hj : ¬ j < f0.length := by omega
    simp only [hj, dite_false]
    refine ⟨old, 0, by simp, staleOf_refl old, Nat.zero_le _, ?_, ?_, ?_⟩
    · intro h
      omega
    · intro h
      omega
    · intro _
      exact ⟨rfl, rfl⟩
  | succ m ih =>
    intro j old em hm
    have hj : j < f0.length := by omega
    by_cases hsize : (old ++ em.map afterimageAt).length < 5000
    · rw [Afterimages.setupParticlesLoop]
      simp only [hj, dite_true, ParticleSystem.getSize, hsize, decide_True, Bool.and_self, if_true]
      obtain ⟨a1, hcheck, hst1⟩ := checkLifespansLoop_append_fresh _ 0 old (em.map afterimageAt)
        (Nat.le_refl _)
        (by
          intro p hp
          obtain ⟨q, _, rfl⟩ := List.mem_map.mp hp
          simp [afterimageAt, Particle.getLifespan])
        (by
          intro p hp
          obtain ⟨q, _, rfl⟩ := List.mem_map.mp hp
          simp [afterimageAt, Particle.getType])
      obtain ⟨kept, k, hres, hst, hk, hfull, hcap, _⟩ :=
        ih (j + 1) a1 (em ++ [f0[j]]) (by omega)
      refine ⟨kept, k + 1, ?_, staleOf_trans hst1 hst, by omega, ?_, ?_, ?_⟩
      · have hemit : Afterimages.emit (Afterimages.checkLifespans ⟨old ++ em.map afterimageAt⟩)
            f0[j] ⟨0, 0, 0⟩ 300 0 = ⟨a1 ++ (em ++ [f0[j]]).map afterimageAt⟩ := by
          simp [Afterimages.emit, Afterimages.checkLifespans, hcheck, Particle.init, afterimageAt]
        rw [hemit, hres]
        have hdrop : f0.drop j = f0[j] :: f0.drop (j + 1) := List.drop_eq_getElem_cons hj
        rw [hdrop, List.take_succ_cons, List.append_assoc, List.singleton_append]
      · intro hlt
        have := hfull (by omega)
        simp at this
        omega
      · intro _
        have h1 := hst.1
        have h2 := hst1.1
        simp only [List.length_append, List.length_map] at hsize
        by_cases hk0 : 0 < k
        · have := hcap hk0
          simp at this
          omega
        · omega
      · intro h5
        simp only [List.length_append, List.length_map] at hsize
        omega
    · rw [setupParticlesLoop_idle f0 true _ (Or.inr (by simpa [ParticleSystem.getSize] using hsize))
        _ j rfl]
      refine ⟨old, 0, by simp, staleOf_refl old, Nat.zero_le _, ?_, ?_, ?_⟩
      · intro _
        simp at hsize
        omega
      · intro h
        omega
      · intro _
        exact ⟨rfl, rfl⟩

/-- C8: a call of `setupParticles` while the whole elapsed second `t` is odd
changes no particle and sets `drawClone` to true; a call while it is even with
`drawClone` false changes no particle; a call while it is even with
`drawClone` true emits, for the positions of `track[0]` in order and while
fewer than 5000 particles exist, one particle at that position with heading
(0, 0, 0), lifespan 300 and type 0, and leaves `drawClone` false. -/
theorem setupParticles_afterimage (t : Nat) (track : Track) (drawClone : Bool)
    (ps : ParticleSystem) :
    (t % 2 = 1 → Afterimages.setupParticles t t track drawClone ps = some (ps, true)) ∧
    (t % 2 = 0 → ∀ f0, track[0]? = some f0 →
      (drawClone = false →
        Afterimages.setupParticles t t track drawClone ps = some (ps, false)) ∧
      (drawClone = true → ∃ (kept : List Particle) (k : Nat),
        Afterimages.setupParticles t t track drawClone ps
          = some (⟨kept ++ (f0.take k).map afterimageAt⟩, false) ∧
        staleOf ps.particleVec kept ∧ k ≤ f0.length ∧
        (k < f0.length → 5000 ≤ kept.length + k) ∧
        (0 < k → kept.length + k ≤ 5000) ∧
        (5000 ≤ ps.getSize → k = 0 ∧ kept = ps.particleVec) ∧
        (ps.getSize + f0.length ≤ 5000 → k = f0.length))) := by
  constructor
  · intro hodd
    have h1 : ¬ t % 2 = 0 := by omega
    simp [Afterimages.setupParticles, h1]
  · intro heven f0 h0
    constructor
    · intro hdc
      simp only [Afterimages.setupParticles, heven, if_true, h0, ne_eq, not_true, if_false]
      rw [setupParticlesLoop_idle f0 drawClone ps (Or.inl hdc) _ 0 rfl]
    · intro hdc
      obtain ⟨kept, k, hres, hst, hk, hfull, hcap, hidle⟩ :=
        setupParticlesLoop_spec f0 _ 0 ps.particleVec [] rfl
      refine ⟨kept, k, ?_, hst, by simpa using hk, ?_, ?_, ?_, ?_⟩
      · simp only [Afterimages.setupParticles, heven, if_true, h0, ne_eq, not_true, if_false, hdc]
        have hps : (⟨ps.particleVec ++ ([] : List ofVec3f).map afterimageAt⟩ : ParticleSystem)
            = ps := by simp
        rw [hps] at hres
        rw [hres]
        simp
      · intro hlt
        have := hfull (by simpa using hlt)
        simpa using this
      · intro hk0
        have := hcap hk0
        simpa using this
      · intro h5
        exact hidle (by simpa [ParticleSystem.getSize] using h5)
      · intro hroom
        by_contra hne
        have hlt : k < f0.length := by
          have : k ≤ f0.length := by simpa using hk
          omega
        have h5 := hfull (by simpa using hlt)
        have hkl := hst.1
        simp only [ParticleSystem.getSize] at hroom
        simp at h5
        omega

/-- C8 at the odd second 3, and at the even second 4 with `drawClone` true, an empty particle system and a frame of one position. -/
theorem setupParticles_afterimage_witness :
    Afterimages.setupParticles 3 3 [[⟨1, 2, 3⟩]] false ⟨[]⟩ = some (⟨[]⟩, true) ∧
    (∃ (kept : List Particle) (k : Nat),
      Afterimages.setupParticles 4 4 [[⟨1, 2, 3⟩]] true ⟨[]⟩
        = some (⟨kept ++ (([⟨1, 2, 3⟩] : Frame).take k).map afterimageAt⟩, false) ∧
      staleOf [] kept ∧ k ≤ 1 ∧ (k < 1 → 5000 ≤ kept.length + k) ∧
      (0 < k → kept.length + k ≤ 5000) ∧ (5000 ≤ 0 → k = 0 ∧ kept = []) ∧
      (0 + 1 ≤ 5000 → k = 1)) :=
  ⟨(setupParticles_afterimage 3 [[⟨1, 2, 3⟩]] false ⟨[]⟩).1 (by decide),
   ((setupParticles_afterimage 4 [[⟨1, 2, 3⟩]] true ⟨[]⟩).2 (by decide) [⟨1, 2, 3⟩] rfl).2 rfl⟩

/-! ## The two examples share the particle system and the vertex pipeline -/

theorem updateParticlesLoop_same (m : Nat) : ∀ (i : Nat) (v : List Particle),
    v.length - i = m →
    Lightning.updateParticlesLoop i v = Afterimages.updateParticlesLoop i v := by
  induction m with
  | zero =>
    intro i v hm
    rw [Lightning.updateParticlesLoop, Afterimages.updateParticlesLoop]
    have hi : ¬ i < v.length := by omega
    simp only [hi, dite_false]
  | succ m ih =>
    intro i v hm
    rw [Lightning.updateParticlesLoop, Afterimages.updateParticlesLoop]
    have hi : i < v.length := by omega
    simp only [hi, dite_true]
    apply ih
    simp
    omega

/-- The loops of `checkLifespans` of the two examples agree. -/
theorem checkLifespansLoop_same (m : Nat) : ∀ (i : Nat) (v : List Particle),
    v.length - i ≤ m →
    Lightning.checkLifespansLoop i v = Afterimages.checkLifespansLoop i v := by
  induction m with
  | zero =>
    intro i v hm
    rw [Lightning.checkLifespansLoop, Afterimages.checkLifespansLoop]
    have hi : ¬ i < v.length := by omega
    simp only [hi, dite_false]
  | succ m ih =>
    intro i v hm
    rw [Lightning.checkLifespansLoop, Afterimages.checkLifespansLoop]
    by_cases hi : i < v.length
    · simp only [hi, dite_true]
      split
      · split
        · apply ih
          simp only [List.eraseIdx_zero, List.length_tail, List.length_set]
          omega
        · apply ih
          simp only [List.length_set]
          omega
      · apply ih
        omega
    · simp only [hi, dite_false]

/-- The inner loops of `addFrame` of the two examples agree. -/
theorem addFrameChildren_same (j : ofxBvhJoint) (m : Nat) : ∀ (n : Nat) (f : Frame),
    j.children.length - n = m →
    Lightning.addFrameChildren j n f = Afterimages.addFrameChildren j n f := by
  induction m with
  | zero =>
    intro n f hm
    rw [Lightning.addFrameChildren, Afterimages.addFrameChildren]
    have hn : ¬ n < j.children.length := by omega
    simp only [hn, dite_false]
  | succ m ih =>
    intro n f hm
    rw [Lightning.addFrameChildren, Afterimages.addFrameChildren]
    have hn : n < j.children.length := by omega
    simp only [hn, dite_true]
    apply ih
    omega

/-- The outer loops of `addFrame` of the two examples agree. -/
theorem addFrameJoints_same (o : ofxBvh) (m : Nat) : ∀ (i : Nat) (f : Frame),
    o.joints.length - i = m →
    Lightning.addFrameJoints o i f = Afterimages.addFrameJoints o i f := by
  induction m with
  | zero =>
    intro i f hm
    rw [Lightning.addFrameJoints, Afterimages.addFrameJoints]
    have hi : ¬ i < o.joints.length := by omega
    simp only [hi, dite_false]
  | succ m ih =>
    intro i f hm
    rw [Lightning.addFrameJoints, Afterimages.addFrameJoints]
    have hi : i < o.joints.length := by omega
    simp only [hi, dite_true]
    rw [addFrameChildren_same _ _ 0 f rfl]
    apply ih
    omega

/-- The vertex displacements of the two examples agree. -/
theorem modifyVertex_same (H : Host) (offset : ofVec3f) (delta : ℚ) (n : Nat) (v : ofVec3f) :
    Lightning.modifyVertex H offset delta n v = Afterimages.modifyVertex H offset delta n v :=
  rfl

/-- The inner loops of `modifyVertices` of the two examples agree. -/
theorem modifyVerticesFrame_same (H : Host) (offset : ofVec3f) (delta : ℚ) (m : Nat) :
    ∀ (n : Nat) (f : Frame), f.length - n = m →
    Lightning.modifyVerticesFrame H offset delta n f
      = Afterimages.modifyVerticesFrame H offset delta n f := by
  induction m with
  | zero =>
    intro n f hm
    rw [Lightning.modifyVerticesFrame, Afterimages.modifyVerticesFrame]
    have hn : ¬ n < f.length := by omega
    simp only [hn, dite_false]
  | succ m ih =>
    intro n f hm
    rw [Lightning.modifyVerticesFrame, Afterimages.modifyVerticesFrame]
    have hn : n < f.length := by omega
    simp only [hn, dite_true]
    rw [modifyVertex_same]
    apply ih
    simp
    omega

/-- The outer loops of `modifyVertices` of the two examples agree. -/
theorem modifyVerticesLoop_same (H : Host) (offset : ofVec3f) (m : Nat) :
    ∀ (i : Nat) (track : Track), track.length - i = m →
    Lightning.modifyVerticesLoop H offset i track
      = Afterimages.modifyVerticesLoop H offset i track := by
  induction m with
  | zero =>
    intro i track hm
    rw [Lightning.modifyVerticesLoop, Afterimages.modifyVerticesLoop]
    have hi : ¬ i < track.length := by omega
    simp only [hi, dite_false]
  | succ m ih =>
    intro i track hm
    rw [Lightning.modifyVerticesLoop, Afterimages.modifyVerticesLoop]
    have hi : i < track.length := by omega
    simp only [hi, dite_true]
    rw [modifyVerticesFrame_same H offset _ _ 0 _ rfl]
    apply ih
    simp
    omega

/-- The inner loops of `cacheVertices` of the two examples agree. -/
theorem cacheVerticesInner_same (H : Host) (track : Track) (n bound : Nat) (m : Nat) :
    ∀ (i : Nat) (norm : ofVec3f) (arr : BufferArray), bound - i = m →
    Lightning.cacheVerticesInner H track n bound i norm arr
      = Afterimages.cacheVerticesInner H track n bound i norm arr := by
  induction m with
  | zero =>
    intro i norm arr hm
    rw [Lightning.cacheVerticesInner, Afterimages.cacheVerticesInner]
    have hi : ¬ i < bound := by omega
    simp only [hi, if_false]
  | succ m ih =>
    intro i norm arr hm
    rw [Lightning.cacheVerticesInner, Afterimages.cacheVerticesInner]
    have hi : i < bound := by omega
    simp only [hi, if_true]
    split
    · rfl
    · split
      · apply ih
        omega
      · rfl

/-- The outer loops of `cacheVertices` of the two examples agree. -/
theorem cacheVerticesOuter_same (H : Host) (track : Track) (m : Nat) :
    ∀ (n : Nat) (buffer : List BufferArray), 52 - n ≤ m →
    Lightning.cacheVerticesOuter H track n buffer
      = Afterimages.cacheVerticesOuter H track n buffer := by
  induction m with
  | zero =>
    intro n buffer hm
    rw [Lightning.cacheVerticesOuter, Afterimages.cacheVerticesOuter]
    have hn : ¬ n < 52 := by omega
    simp only [hn, if_false]
  | succ m ih =>
    intro n buffer hm
    rw [Lightning.cacheVerticesOuter, Afterimages.cacheVerticesOuter]
    by_cases hn : n < 52
    · simp only [hn, if_true]
      rw [cacheVerticesInner_same H track n _ _ 0 _ _ rfl]
      split
      · rfl
      · apply ih
        omega
    · simp only [hn, if_false]

/-- C9: `emit`, `updateParticles`, `checkLifespans`, `addFrame`, `modifyVertices`
and `cacheVertices` of the lightning example compute, on every input, the same
result as the operations of the same name of the afterimages example. -/
theorem lightning_afterimages_same_operations :
    (∀ ps pos_ heading_ lifespan_ type_,
      Lightning.emit ps pos_ heading_ lifespan_ type_
        = Afterimages.emit ps pos_ heading_ lifespan_ type_) ∧
    (∀ ps, Lightning.updateParticles ps = Afterimages.updateParticles ps) ∧
    (∀ ps, Lightning.checkLifespans ps = Afterimages.checkLifespans ps) ∧
    (∀ f o track_, Lightning.addFrame f o track_ = Afterimages.addFrame f o track_) ∧
    (∀ H offset track,
      Lightning.modifyVertices H offset track = Afterimages.modifyVertices H offset track) ∧
    (∀ H track buffer,
      Lightning.cacheVertices H track buffer = Afterimages.cacheVertices H track buffer) := by
  refine ⟨fun _ _ _ _ _ => rfl, ?_, ?_, ?_, ?_, ?_⟩
  · intro ps
    simp only [Lightning.updateParticles, Afterimages.updateParticles,
      updateParticlesLoop_same _ 0 ps.particleVec rfl]
  · intro ps
    simp only [Lightning.checkLifespans, Afterimages.checkLifespans,
      checkLifespansLoop_same _ 0 ps.particleVec (Nat.le_refl _)]
  · intro f o track_
    simp only [Lightning.addFrame, Afterimages.addFrame, addFrameJoints_same o _ 0 f rfl]
  · intro H offset track
    simp only [Lightning.modifyVertices, Afterimages.modifyVertices,
      modifyVerticesLoop_same H offset _ 0 track rfl]
  · intro H track buffer
    simp only [Lightning.cacheVertices, Afterimages.cacheVertices,
      cacheVerticesOuter_same H track _ 0 [] (Nat.le_refl _)]

/-! ## Theorems on the lightning bolts -/

/-- The strip loop of `renderBolt` appends, for each remaining round, the three strips. -/
theorem renderBoltStrips_eq (widths : Nat → Int) (colors : Nat → ofColor) (intensity : Int)
    (last mid : ofVec3f) (m : Nat) : ∀ (j : Nat) (drawn : List LineStrip),
    (intensity - j).toNat = m →
    Lightning.renderBoltStrips widths colors intensity last mid j drawn
      = drawn ++ (List.replicate (intensity - j).toNat
          [(⟨widths 0, colors 0, last, mid⟩ : LineStrip), ⟨widths 1, colors 1, last, mid⟩,
            ⟨widths 2, colors 2, last, mid⟩]).flatten := by
  induction m with
  | zero =>
    intro j drawn hm
    rw [Lightning.renderBoltStrips]
    have hj : ¬ (j : Int) < intensity := by omega
    simp only [hj, if_false, hm]
    simp
  | succ m ih =>
    intro j drawn hm
    rw [Lightning.renderBoltStrips]
    have hj : (j : Int) < intensity := by omega
    simp only [hj, if_true]
    rw [ih (j + 1) _ (by push_cast; omega), hm]
    have h1 : (intensity - ((j + 1 : Nat) : Int)).toNat = m := by push_cast; omega
    rw [h1, List.replicate_succ, List.flatten_cons]
    simp

/-- The spark loop at the end of a bolt returns when the end point can be read. -/
theorem renderBoltEndSparks_some (target : Frame) (endIndex : Int) (tg : ofVec3f)
    (htg : readAt target endIndex = some tg) (m : Nat) :
    ∀ (j : Nat) (ps : ParticleSystem) (r : RandState), 3 - j = m →
      ∃ res, Lightning.renderBoltEndSparks target endIndex j ps r = some res := by
  induction m with
  | zero =>
    intro j ps r hm
    rw [Lightning.renderBoltEndSparks]
    have hj : ¬ j < 3 := by omega
    simp only [hj, if_false]
    exact ⟨_, rfl⟩
  | succ m ih =>
    intro j ps r hm
    rw [Lightning.renderBoltEndSparks]
    have hj : j < 3 := by omega
    simp only [hj, if_true, htg]
    exact ih (j + 1) _ _ (by omega)

/-- Loop invariant of `renderBolt`: from round `i` on, while no round has left
the loop, the loop returns and draws one segment for each round up to
`min numPoints_ (placeCount + 1)`, as a chain that starts at the start point in
the first round and at the end of the last segment afterwards. -/
theorem renderBoltLoop_spec (startPoints : Frame) (numPoints placeCount : Int)
    (modifier : Nat → Int) (numPoints_ : Int) (target : Frame) (startIndex endIndex : Int)
    (widths : Nat → Int) (colors : Nat → ofColor) (sparkMod intensity positionMod : Int)
    (sp tg : ofVec3f) (hsp : readAt startPoints startIndex = some sp)
    (htg : readAt target endIndex = some tg) (hmod : sparkMod ≠ 0)
    (hrange : min numPoints_ (placeCount + 1) < 1024) (m : Nat) :
    ∀ (i : Nat) (last mid : ofVec3f) (s : Lightning.BoltState),
      (numPoints_ + 1 - i).toNat = m → 1 ≤ i → (i : Int) ≤ placeCount + 1 →
      ∃ (res : Lightning.BoltState) (pts : List ofVec3f),
        Lightning.renderBoltLoop startPoints numPoints placeCount modifier numPoints_ target
          startIndex endIndex widths colors sparkMod intensity positionMod i last mid s
          = some res ∧
        pts.length = (min numPoints_ (placeCount + 1) + 1 - i).toNat ∧
        res.drawn = s.drawn ++
          ((boltChain (if i = 1 then ⟨sp.x, sp.y * positionMod, sp.z⟩ else last) pts).map
            (fun ab => boltStrips widths colors intensity ab.1 ab.2)).flatten := by
  induction m with
  | zero =>
    intro i last mid s hm h1 hpc
    rw [Lightning.renderBoltLoop]
    have hi : ¬ (i : Int) ≤ numPoints_ := by omega
    simp only [hi, if_false]
    refine ⟨s, [], rfl, ?_, by simp [boltChain]⟩
    simp only [List.length_nil]
    omega
  | succ m ih =>
    intro i last mid s hm h1 hpc
    rw [Lightning.renderBoltLoop]
    have hi : (i : Int) ≤ numPoints_ := by omega
    have hi1024 : i < 1024 := by omega
    simp only [hi, if_true, hmod, if_false, hsp, htg, hi1024]
    split
    · rename_i heq
      split at heq <;> cases heq
    · rename_i ps r heq
      obtain ⟨nextPt, hnext⟩ : ∃ nextPt : ofVec3f, nextPt =
          ⟨sp.x + (i : ℚ) / (numPoints : ℚ) * (tg.x - sp.x) + ((r.value % 5 : Nat) : ℚ),
           sp.y * (positionMod : ℚ) + (i : ℚ) / (numPoints : ℚ) * (tg.y - sp.y) * (positionMod : ℚ)
             + ((modifier i : Int) : ℚ) + ((r.advance.value % 5 : Nat) : ℚ),
           sp.z + (i : ℚ) / (numPoints : ℚ) * (tg.z - sp.z)
             + ((r.advance.advance.value % 5 : Nat) : ℚ)⟩ := ⟨_, rfl⟩
      simp only [← hnext]
      split
      · rename_i hbreak
        refine ⟨_, [nextPt], rfl, ?_, ?_⟩
        · simp only [List.length_singleton]
          omega
        · simp only [renderBoltStrips_eq widths colors intensity _ _ _ 0 s.drawn rfl]
          simp [boltChain, boltStrips]
      · rename_i hgo
        split
        · rename_i hnone
          exfalso
          split at hnone
          · split at hnone
            · obtain ⟨res, hres⟩ := renderBoltEndSparks_some target endIndex tg htg _ 0 ps
                r.advance.advance.advance.advance rfl
              rw [hres] at hnone
              cases hnone
            · cases hnone
          · cases hnone
        · rename_i ps1 r1 hsome
          obtain ⟨res, pts, hres, hlen, hdrawn⟩ := ih (i + 1) _ _ _
            (by push_cast; omega) (by omega) (by push_cast; omega)
          refine ⟨res, nextPt :: pts, hres, ?_, ?_⟩
          · simp only [List.length_cons, hlen]
            push_cast
            omega
          · have hne : ¬ (i + 1 = 1) := by omega
            simp only [hne, if_false] at hdrawn
            rw [hdrawn]
            simp only [renderBoltStrips_eq widths colors intensity _ _ _ 0 s.drawn rfl]
            simp [boltChain, boltStrips]

/-- A chain is connected: its first segment starts at the start point, and
every later segment starts at the end point of the segment before it. -/
theorem boltChain_connected (start : ofVec3f) (pts : List ofVec3f) :
    (boltChain start pts).length = pts.length ∧
    (∀ seg, (boltChain start pts)[0]? = some seg → seg.1 = start) ∧
    (∀ k segA segB, (boltChain start pts)[k]? = some segA →
      (boltChain start pts)[k + 1]? = some segB → segB.1 = segA.2) := by
  refine ⟨by simp [boltChain], ?_, ?_⟩
  · intro seg h
    cases pts with
    | nil => simp [boltChain] at h
    | cons p ps =>
      simp [boltChain] at h
      rw [← h]
  · intro k segA segB hA hB
    simp only [boltChain, List.getElem?_zip_eq_some] at hA hB
    have h1 := hA.2
    have h2 := hB.1
    simp only [List.getElem?_cons_succ] at h2
    rw [h1] at h2
    exact (Option.some.inj h2).symm

/-- C10 (amended): for `numPoints_ >= 1` and `placeCount >= 0`, with the start
and end points readable, `sparkMod` not 0 and the rounds within the `modifier`
array (`min(numPoints_, placeCount + 1) < 1024`),
`renderBolt` draws exactly `min(numPoints_, placeCount + 1)` segments, each as
`3 * intensity` line strips (`intensity` times the three strips), as a
connected chain: the first segment starts at `startPoints[startIndex]` with its
`y` multiplied by `positionMod`, and every later segment starts at the end
point of the segment before it. -/
theorem renderBolt_draws_connected_chain (startPoints : Frame) (numPoints placeCount : Int)
    (modifier : Nat → Int) (last mid : ofVec3f) (numPoints_ fade : Int) (target : Frame)
    (startIndex endIndex : Int) (widths : Nat → Int) (colors : Nat → ofColor)
    (sparkMod intensity positionMod : Int) (s : Lightning.BoltState) (sp tg : ofVec3f)
    (hn : 1 ≤ numPoints_) (hp : 0 ≤ placeCount)
    (hsp : readAt startPoints startIndex = some sp)
    (htg : readAt target endIndex = some tg) (hmod : sparkMod ≠ 0)
    (hrange : min numPoints_ (placeCount + 1) < 1024) :
    ∃ (res : Lightning.BoltState) (pts : List ofVec3f),
      Lightning.renderBolt startPoints numPoints placeCount modifier last mid numPoints_ fade
        target startIndex endIndex widths colors sparkMod intensity positionMod s = some res ∧
      (pts.length : Int) = min numPoints_ (placeCount + 1) ∧
      res.drawn = s.drawn ++
        ((boltChain ⟨sp.x, sp.y * positionMod, sp.z⟩ pts).map
          (fun ab => boltStrips widths colors intensity ab.1 ab.2)).flatten ∧
      (∀ a b, (boltStrips widths colors intensity a b).length = 3 * intensity.toNat) ∧
      (boltChain ⟨sp.x, sp.y * positionMod, sp.z⟩ pts).length = pts.length ∧
      (∀ seg, (boltChain ⟨sp.x, sp.y * positionMod, sp.z⟩ pts)[0]? = some seg →
        seg.1 = ⟨sp.x, sp.y * positionMod, sp.z⟩) ∧
      (∀ k segA segB, (boltChain ⟨sp.x, sp.y * positionMod, sp.z⟩ pts)[k]? = some segA →
        (boltChain ⟨sp.x, sp.y * positionMod, sp.z⟩ pts)[k + 1]? = some segB →
        segB.1 = segA.2) := by
  obtain ⟨res, pts, hres, hlen, hdrawn⟩ := renderBoltLoop_spec startPoints numPoints placeCount
    modifier numPoints_ target startIndex endIndex widths colors sparkMod intensity positionMod
    sp tg hsp htg hmod hrange _ 1 last mid s rfl (Nat.le_refl 1) (by push_cast; omega)
  have hc := boltChain_connected ⟨sp.x, sp.y * positionMod, sp.z⟩ pts
  refine ⟨res, pts, hres, ?_, ?_, ?_, hc.1, hc.2.1, hc.2.2⟩
  · rw [hlen]
    push_cast
    omega
  · simpa using hdrawn
  · intro a b
    simp [boltStrips]
    ring

/-- C10 at a bolt of two points with `placeCount` 0, from (0, 1, 0) to (4, 4, 4), with `positionMod` 3. -/
theorem renderBolt_draws_connected_chain_witness :
    (1 : Int) ≤ 2 ∧ (0 : Int) ≤ 0 ∧
    ∃ (res : Lightning.BoltState) (pts : List ofVec3f),
      Lightning.renderBolt [⟨0, 1, 0⟩] 2 0 (fun _ => 0) ⟨0, 0, 0⟩ ⟨0, 0, 0⟩ 2 0 [⟨4, 4, 4⟩] 0 0
        (fun _ => 1) (fun _ => ⟨0, 0, 0, 0⟩) 30 2 3 ⟨⟨[]⟩, ⟨fun n => n, 0⟩, []⟩ = some res ∧
      (pts.length : Int) = min 2 (0 + 1) ∧
      res.drawn = [] ++
        ((boltChain ⟨0, 1 * ((3 : Int) : ℚ), 0⟩ pts).map
          (fun ab => boltStrips (fun _ => 1) (fun _ => ⟨0, 0, 0, 0⟩) 2 ab.1 ab.2)).flatten :=
  ⟨by decide, by decide,
    (renderBolt_draws_connected_chain [⟨0, 1, 0⟩] 2 0 (fun _ => 0) ⟨0, 0, 0⟩ ⟨0, 0, 0⟩ 2 0
      [⟨4, 4, 4⟩] 0 0 (fun _ => 1) (fun _ => ⟨0, 0, 0, 0⟩) 30 2 3 ⟨⟨[]⟩, ⟨fun n => n, 0⟩, []⟩
      ⟨0, 1, 0⟩ ⟨4, 4, 4⟩ (by decide) (by decide) rfl rfl (by decide) (by decide)).imp
      (fun _ h => h.imp (fun _ h2 => ⟨h2.1, h2.2.1, h2.2.2.1⟩))⟩

/-- The loop of `renderBolt` leaves the `modifier` array: when at least 1024
rounds are due and none of them leaves the loop early, round 1024 reads
`modifier[1024]` and no result is returned. -/
theorem renderBoltLoop_modifier_overrun (startPoints : Frame) (numPoints placeCount : Int)
    (modifier : Nat → Int) (numPoints_ : Int) (target : Frame) (startIndex endIndex : Int)
    (widths : Nat → Int) (colors : Nat → ofColor) (sparkMod intensity positionMod : Int)
    (sp tg : ofVec3f) (hsp : readAt startPoints startIndex = some sp)
    (htg : readAt target endIndex = some tg) (hmod : sparkMod ≠ 0)
    (hn : 1024 ≤ numPoints_) (hp : 1023 ≤ placeCount) (m : Nat) :
    ∀ (i : Nat) (last mid : ofVec3f) (s : Lightning.BoltState), 1024 - i = m → i ≤ 1024 →
      Lightning.renderBoltLoop startPoints numPoints placeCount modifier numPoints_ target
        startIndex endIndex widths colors sparkMod intensity positionMod i last mid s = none := by
  induction m with
  | zero =>
    intro i last mid s hm hi
    rw [Lightning.renderBoltLoop]
    have hle : (i : Int) ≤ numPoints_ := by omega
    have hbig : ¬ i < 1024 := by omega
    simp only [hle, if_true, hmod, if_false, hsp, htg, hbig]
    split <;> rfl
  | succ m ih =>
    intro i last mid s hm hi
    rw [Lightning.renderBoltLoop]
    have hle : (i : Int) ≤ numPoints_ := by omega
    have hsmall : i < 1024 := by omega
    have hgo : ¬ (i : Int) > placeCount := by omega
    simp only [hle, if_true, hmod, if_false, hsp, htg, hsmall, hgo]
    split
    · rfl
    · split
      · rfl
      · exact ih (i + 1) _ _ _ (by omega) (by omega)

/-- C10 (counterexample): with `numPoints_ >= 1` and `placeCount >= 0`,
`renderBolt` draws no chain of `min(numPoints_, placeCount + 1)` segments when
`sparkMod` is 0 (`rand() % 0`), when `target[endIndex]` is outside `target`, or
when 1024 rounds are due (`modifier[1024]` is outside the array): in each case
no result is returned. -/
theorem renderBolt_undefined_inputs :
    ((1 : Int) ≤ 2 ∧ (0 : Int) ≤ 0 ∧
      Lightning.renderBolt [⟨0, 1, 0⟩] 2 0 (fun _ => 0) ⟨0, 0, 0⟩ ⟨0, 0, 0⟩ 2 0 [⟨4, 4, 4⟩] 0 0
        (fun _ => 1) (fun _ => ⟨0, 0, 0, 0⟩) 0 2 3 ⟨⟨[]⟩, ⟨fun n => n + 1, 0⟩, []⟩ = none) ∧
    ((1 : Int) ≤ 2 ∧ (0 : Int) ≤ 0 ∧
      Lightning.renderBolt [⟨0, 1, 0⟩] 2 0 (fun _ => 0) ⟨0, 0, 0⟩ ⟨0, 0, 0⟩ 2 0 [] 0 0
        (fun _ => 1) (fun _ => ⟨0, 0, 0, 0⟩) 30 2 3 ⟨⟨[]⟩, ⟨fun n => n + 1, 0⟩, []⟩ = none) ∧
    ((1 : Int) ≤ 1024 ∧ (0 : Int) ≤ 1023 ∧
      Lightning.renderBolt [⟨0, 1, 0⟩] 1024 1023 (fun _ => 0) ⟨0, 0, 0⟩ ⟨0, 0, 0⟩ 1024 0
        [⟨4, 4, 4⟩] 0 0 (fun _ => 1) (fun _ => ⟨0, 0, 0, 0⟩) 30 2 3
        ⟨⟨[]⟩, ⟨fun n => n + 1, 0⟩, []⟩ = none) ∧
    ¬ (∀ (startPoints : Frame) (numPoints placeCount : Int) (modifier : Nat → Int)
        (last mid : ofVec3f) (numPoints_ fade : Int) (target : Frame)
        (startIndex endIndex : Int) (widths : Nat → Int) (colors : Nat → ofColor)
        (sparkMod intensity positionMod : Int) (s : Lightning.BoltState) (sp : ofVec3f),
        1 ≤ numPoints_ → 0 ≤ placeCount → readAt startPoints startIndex = some sp →
        ∃ (res : Lightning.BoltState) (pts : List ofVec3f),
          Lightning.renderBolt startPoints numPoints placeCount modifier last mid numPoints_ fade
            target startIndex endIndex widths colors sparkMod intensity positionMod s
            = some res ∧
          (pts.length : Int) = min numPoints_ (placeCount + 1) ∧
          res.drawn = s.drawn ++
            ((boltChain ⟨sp.x, sp.y * positionMod, sp.z⟩ pts).map
              (fun ab => boltStrips widths colors intensity ab.1 ab.2)).flatten) := by
  have h1 : Lightning.renderBolt [⟨0, 1, 0⟩] 2 0 (fun _ => 0) ⟨0, 0, 0⟩ ⟨0, 0, 0⟩ 2 0
      [⟨4, 4, 4⟩] 0 0 (fun _ => 1) (fun _ => ⟨0, 0, 0, 0⟩) 0 2 3
      ⟨⟨[]⟩, ⟨fun n => n + 1, 0⟩, []⟩ = none := by
    rw [Lightning.renderBolt, Lightning.renderBoltLoop]
    simp
  have h2 : Lightning.renderBolt [⟨0, 1, 0⟩] 2 0 (fun _ => 0) ⟨0, 0, 0⟩ ⟨0, 0, 0⟩ 2 0 [] 0 0
      (fun _ => 1) (fun _ => ⟨0, 0, 0, 0⟩) 30 2 3 ⟨⟨[]⟩, ⟨fun n => n + 1, 0⟩, []⟩ = none := by
    rw [Lightning.renderBolt, Lightning.renderBoltLoop]
    simp [readAt, RandState.value, RandState.advance]
    split <;> rfl
  have h3 : Lightning.renderBolt [⟨0, 1, 0⟩] 1024 1023 (fun _ => 0) ⟨0, 0, 0⟩ ⟨0, 0, 0⟩ 1024 0
      [⟨4, 4, 4⟩] 0 0 (fun _ => 1) (fun _ => ⟨0, 0, 0, 0⟩) 30 2 3
      ⟨⟨[]⟩, ⟨fun n => n + 1, 0⟩, []⟩ = none :=
    renderBoltLoop_modifier_overrun [⟨0, 1, 0⟩] 1024 1023 (fun _ => 0) 1024 [⟨4, 4, 4⟩] 0 0
      (fun _ => 1) (fun _ => ⟨0, 0, 0, 0⟩) 30 2 3 ⟨0, 1, 0⟩ ⟨4, 4, 4⟩ rfl rfl (by decide)
      (by decide) (by decide) _ 1 _ _ _ rfl (by decide)
  refine ⟨⟨by decide, by decide, h1⟩, ⟨by decide, by decide, h2⟩,
    ⟨by decide, by decide, h3⟩, ?_⟩
  intro hall
  obtain ⟨res, _, hres, _⟩ := hall [⟨0, 1, 0⟩] 2 0 (fun _ => 0) ⟨0, 0, 0⟩ ⟨0, 0, 0⟩ 2 0
    [⟨4, 4, 4⟩] 0 0 (fun _ => 1) (fun _ => ⟨0, 0, 0, 0⟩) 0 2 3
    ⟨⟨[]⟩, ⟨fun n => n + 1, 0⟩, []⟩ ⟨0, 1, 0⟩ (by decide) (by decide) rfl
  rw [h1] at hres
  cases hres

/-! ## Theorems on the frames of the skeleton -/

/-- Loop invariant of the inner loop of `addFrame`: from child `n` on, the loop
appends the joint's position and the child's position for each remaining child. -/
theorem addFrameChildren_eq (j : ofxBvhJoint) (m : Nat) : ∀ (n : Nat) (f : Frame),
    j.children.length - n = m →
    Lightning.addFrameChildren j n f
      = f ++ ((j.children.drop n).map (fun c => (j.position, c))).flatMap
          (fun p => [p.1, p.2]) := by
  induction m with
  | zero =>
    intro n f hm
    rw [Lightning.addFrameChildren]
    have hn : ¬ n < j.children.length := by omega
    simp only [hn, dite_false]
    rw [List.drop_of_length_le (by omega)]
    simp
  | succ m ih =>
    intro n f hm
    rw [Lightning.addFrameChildren]
    have hn : n < j.children.length := by omega
    simp only [hn, dite_true]
    rw [ih (n + 1) _ (by omega), List.drop_eq_getElem_cons hn]
    simp only [List.map_cons, List.flatMap_cons, List.append_assoc, List.cons_append,
      List.nil_append]

/-- Loop invariant of the outer loop of `addFrame`: from joint `i` on, the loop
appends the end points of the bones of each remaining joint. -/
theorem addFrameJoints_eq (o : ofxBvh) (m : Nat) : ∀ (i : Nat) (f : Frame),
    o.joints.length - i = m →
    Lightning.addFrameJoints o i f
      = f ++ ((o.joints.drop i).flatMap
          (fun j => j.children.map (fun c => (j.position, c)))).flatMap
          (fun p => [p.1, p.2]) := by
  induction m with
  | zero =>
    intro i f hm
    rw [Lightning.addFrameJoints]
    have hi : ¬ i < o.joints.length := by omega
    simp only [hi, dite_false]
    rw [List.drop_of_length_le (by omega)]
    simp
  | succ m ih =>
    intro i f hm
    rw [Lightning.addFrameJoints]
    have hi : i < o.joints.length := by omega
    simp only [hi, dite_true]
    rw [ih (i + 1) _ (by omega), addFrameChildren_eq _ _ 0 f rfl, List.drop_eq_getElem_cons hi]
    simp only [List.drop_zero, List.flatMap_cons, List.flatMap_append, List.append_assoc]

/-- The frame `addFrame` builds from an empty frame is the list of the end
points of the bones. -/
theorem addFrame_frame_eq (o : ofxBvh) (track_ : Track) :
    (Lightning.addFrame [] o track_).1 = (bonePairs o).flatMap (fun p => [p.1, p.2]) := by
  simp [Lightning.addFrame, addFrameJoints_eq o _ 0 [] rfl, bonePairs]

/-- The list of end points of `ps` pairs has `2 * ps.length` positions. -/
theorem endPoints_length (ps : List (ofVec3f × ofVec3f)) :
    (ps.flatMap (fun p => [p.1, p.2])).length = 2 * ps.length := by
  induction ps with
  | nil => rfl
  | cons p ps ih =>
    simp only [List.flatMap_cons, List.length_append, List.length_cons, List.length_nil, ih]
    omega

/-- In the list of end points, position `2 * k` is the first end point of pair
`k` and position `2 * k + 1` the second. -/
theorem endPoints_getElem? (ps : List (ofVec3f × ofVec3f)) : ∀ (k : Nat),
    (ps.flatMap (fun p => [p.1, p.2]))[2 * k]? = (ps[k]?).map (fun p => p.1) ∧
    (ps.flatMap (fun p => [p.1, p.2]))[2 * k + 1]? = (ps[k]?).map (fun p => p.2) := by
  induction ps with
  | nil =>
    intro k
    simp
  | cons p ps ih =>
    intro k
    cases k with
    | zero => simp
    | succ k =>
      have h1 : 2 * (k + 1) = 2 * k + 1 + 1 := by ring
      rw [h1]
      simp only [List.flatMap_cons, List.cons_append, List.nil_append,
        List.getElem?_cons_succ]
      exact ih k

/-- The number of bone pairs is the sum over the joints of the number of children. -/
theorem bonePairs_length (o : ofxBvh) : (bonePairs o).length = boneCount o := by
  unfold bonePairs boneCount
  induction o.joints with
  | nil => rfl
  | cons j js ih =>
    simp only [List.flatMap_cons, List.length_append, List.length_map, List.map_cons,
      List.sum_cons, ih]

/-- The line loop of `drawFigure` reads inside a frame of even length, and hands
over its positions in order. -/
theorem drawFigureLines_even (f : Frame) (heven : f.length % 2 = 0) (m : Nat) :
    ∀ (n : Nat) (out : List ofVec3f), f.length - n ≤ m → n % 2 = 0 →
      Lightning.drawFigureLines f n out = some (out ++ f.drop n) := by
  induction m with
  | zero =>
    intro n out hm _
    rw [Lightning.drawFigureLines]
    have hn : ¬ n < f.length := by omega
    simp only [hn, if_false]
    rw [List.drop_of_length_le (by omega)]
    simp
  | succ m ih =>
    intro n out hm hn2
    rw [Lightning.drawFigureLines]
    by_cases hn : n < f.length
    · have hn1 : n + 1 < f.length := by omega
      simp only [hn, if_true, List.getElem?_eq_getElem hn, List.getElem?_eq_getElem hn1]
      rw [ih (n + 2) _ (by omega) (by omega), List.drop_eq_getElem_cons hn,
        List.drop_eq_getElem_cons hn1]
      simp only [List.append_assoc, List.cons_append, List.nil_append]
    · simp only [hn, if_false]
      rw [List.drop_of_length_le (by omega)]
      simp

/-- The point loop of `drawFigure` hands over the positions of the frame in order. -/
theorem drawFigurePoints_eq (f : Frame) (m : Nat) :
    ∀ (n : Nat) (out : List ofVec3f), f.length - n = m →
      Lightning.drawFigurePoints f n out = out ++ f.drop n := by
  induction m with
  | zero =>
    intro n out hm
    rw [Lightning.drawFigurePoints]
    have hn : ¬ n < f.length := by omega
    simp only [hn, dite_false]
    rw [List.drop_of_length_le (by omega)]
    simp
  | succ m ih =>
    intro n out hm
    rw [Lightning.drawFigurePoints]
    have hn : n < f.length := by omega
    simp only [hn, dite_true]
    rw [ih (n + 1) _ (by omega), List.drop_eq_getElem_cons hn]
    simp only [List.append_assoc, List.cons_append, List.nil_append]

/-- On a track whose current frame has even length, `drawFigure` reads inside
the frame and hands over its positions four times. -/
theorem drawFigure_even (f : Frame) (rest : Track) (heven : f.length % 2 = 0) :
    Lightning.drawFigure (f :: rest) = some (f ++ f ++ f ++ f) := by
  simp only [Lightning.drawFigure, drawFigureLines_even f heven _ 0 _ (Nat.le_refl _) rfl,
    drawFigurePoints_eq f _ 0 _ rfl, List.drop_zero, List.nil_append]

/-- The method `modifyVertices` keeps the number of positions of every frame. -/
theorem modifyVerticesFrame_length (H : Host) (offset : ofVec3f) (delta : ℚ) (f : Frame) :
    (Lightning.modifyVerticesFrame H offset delta 0 f).length = f.length := by
  have hget := modifyVerticesFrame_getElem? H offset delta _ 0 f rfl
  apply Nat.le_antisymm
  · have h := hget f.length
    simp only [Nat.not_lt_zero, if_false, List.getElem?_eq_none (Nat.le_refl _),
      Option.map_none'] at h
    exact List.getElem?_eq_none_iff.mp h
  · have h := hget (Lightning.modifyVerticesFrame H offset delta 0 f).length
    simp only [Nat.not_lt_zero, if_false, List.getElem?_eq_none (Nat.le_refl _)] at h
    have h2 : f[(Lightning.modifyVerticesFrame H offset delta 0 f).length]? = none := by
      cases hf : f[(Lightning.modifyVerticesFrame H offset delta 0 f).length]? with
      | none => rfl
      | some v =>
        rw [hf] at h
        cases h
    exact List.getElem?_eq_none_iff.mp h2

/-- After `modifyVertices` the current frame has as many positions as before. -/
theorem modifyVertices_head (H : Host) (offset : ofVec3f) (f : Frame) (rest : Track) :
    ∃ g rest1, Lightning.modifyVertices H offset (f :: rest) = g :: rest1 ∧
      g.length = f.length := by
  have h := modifyVerticesLoop_getElem? H offset _ 0 (f :: rest) rfl 0
  simp only [Nat.lt_irrefl, if_false, List.getElem?_cons_zero, Option.map_some'] at h
  cases hm : Lightning.modifyVertices H offset (f :: rest) with
  | nil =>
    rw [Lightning.modifyVertices] at hm
    rw [hm] at h
    cases h
  | cons g rest1 =>
    rw [Lightning.modifyVertices] at hm
    rw [hm] at h
    simp only [List.getElem?_cons_zero, Option.some.injEq] at h
    exact ⟨g, rest1, rfl, by rw [h, modifyVerticesFrame_length]⟩

/-- C11: starting from an empty frame, the frame `addFrame` builds has exactly
2 * (sum over all joints of the number of children) positions, and for the
k-th (joint, child) pair, in joint order then child order, position 2k is the
joint's position and position 2k + 1 is the child's position; so its length is
even, for every even `n` below its length `n + 1` is below its length too, and
the reads `f[n]`, `f[n + 1]` of `drawFigure` on the track `addFrame` returns are
all in range, also after `modifyVertices`. -/
theorem addFrame_frame_is_bone_end_points (o : ofxBvh) (track_ : Track) :
    (Lightning.addFrame [] o track_).1.length = 2 * boneCount o ∧
    (bonePairs o).length = boneCount o ∧
    (∀ k pair, (bonePairs o)[k]? = some pair →
      (Lightning.addFrame [] o track_).1[2 * k]? = some pair.1 ∧
      (Lightning.addFrame [] o track_).1[2 * k + 1]? = some pair.2) ∧
    (Lightning.addFrame [] o track_).1.length % 2 = 0 ∧
    (∀ n, n % 2 = 0 → n < (Lightning.addFrame [] o track_).1.length →
      n + 1 < (Lightning.addFrame [] o track_).1.length) ∧
    (∃ rest, (Lightning.addFrame [] o track_).2 = (Lightning.addFrame [] o track_).1 :: rest) ∧
    Lightning.drawFigure (Lightning.addFrame [] o track_).2
      = some ((Lightning.addFrame [] o track_).1 ++ (Lightning.addFrame [] o track_).1
          ++ (Lightning.addFrame [] o track_).1 ++ (Lightning.addFrame [] o track_).1) ∧
    (∀ H offset, ∃ out,
      Lightning.drawFigure (Lightning.modifyVertices H offset (Lightning.addFrame [] o track_).2)
        = some out) := by
  have hframe := addFrame_frame_eq o track_
  have hlen : (Lightning.addFrame [] o track_).1.length = 2 * boneCount o := by
    rw [hframe, endPoints_length, bonePairs_length]
  have heven : (Lightning.addFrame [] o track_).1.length % 2 = 0 := by
    rw [hlen]
    omega
  have hhead : ∃ rest,
      (Lightning.addFrame [] o track_).2 = (Lightning.addFrame [] o track_).1 :: rest := by
    simp only [Lightning.addFrame]
    split
    · rename_i hbig
      cases track_ with
      | nil => simp at hbig
      | cons t ts => exact ⟨(t :: ts).dropLast, by simp [List.dropLast]⟩
    · exact ⟨track_, rfl⟩
  refine ⟨hlen, bonePairs_length o, ?_, heven, ?_, hhead, ?_, ?_⟩
  · intro k pair hk
    have h := endPoints_getElem? (bonePairs o) k
    rw [hk] at h
    rw [hframe]
    exact h
  · intro n hn hlt
    omega
  · obtain ⟨rest, hrest⟩ := hhead
    rw [hrest]
    exact drawFigure_even _ rest heven
  · intro H offset
    obtain ⟨rest, hrest⟩ := hhead
    obtain ⟨g, rest1, hg, hglen⟩ := modifyVertices_head H offset
      (Lightning.addFrame [] o track_).1 rest
    rw [hrest, hg]
    exact ⟨_, drawFigure_even g rest1 (by rw [hglen]; exact heven)⟩

/-- C11 at a skeleton of three joints with two, no and one child: three bones,
a frame of six positions. -/
theorem addFrame_frame_is_bone_end_points_witness :
    (Lightning.addFrame []
      ⟨[⟨⟨0, 0, 0⟩, [⟨1, 1, 1⟩, ⟨2, 2, 2⟩]⟩, ⟨⟨3, 3, 3⟩, []⟩, ⟨⟨4, 4, 4⟩, [⟨5, 5, 5⟩]⟩]⟩
      []).1.length
      = 2 * boneCount
          ⟨[⟨⟨0, 0, 0⟩, [⟨1, 1, 1⟩, ⟨2, 2, 2⟩]⟩, ⟨⟨3, 3, 3⟩, []⟩, ⟨⟨4, 4, 4⟩, [⟨5, 5, 5⟩]⟩]⟩ ∧
    boneCount
      ⟨[⟨⟨0, 0, 0⟩, [⟨1, 1, 1⟩, ⟨2, 2, 2⟩]⟩, ⟨⟨3, 3, 3⟩, []⟩, ⟨⟨4, 4, 4⟩, [⟨5, 5, 5⟩]⟩]⟩ = 3 ∧
    bonePairs
      ⟨[⟨⟨0, 0, 0⟩, [⟨1, 1, 1⟩, ⟨2, 2, 2⟩]⟩, ⟨⟨3, 3, 3⟩, []⟩, ⟨⟨4, 4, 4⟩, [⟨5, 5, 5⟩]⟩]⟩
      = [(⟨0, 0, 0⟩, ⟨1, 1, 1⟩), (⟨0, 0, 0⟩, ⟨2, 2, 2⟩), (⟨4, 4, 4⟩, ⟨5, 5, 5⟩)] :=
  ⟨(addFrame_frame_is_bone_end_points
      ⟨[⟨⟨0, 0, 0⟩, [⟨1, 1, 1⟩, ⟨2, 2, 2⟩]⟩, ⟨⟨3, 3, 3⟩, []⟩, ⟨⟨4, 4, 4⟩, [⟨5, 5, 5⟩]⟩]⟩ []).1,
    rfl, rfl⟩
